import Mathlib

/-!
Verification development for the Belief_Revision repository: a shallow
embedding of the propositional-logic pipeline (AST formula model, recursive
descent parsing, CNF transformation, clause extraction, resolution,
and the prioritized belief base) together with theorems settling the
specification's claims.

Conventions of the embedding:
* Python exceptions (ParseError / TypeError / RecursionError) are modelled by
  `Option`: `none` means the corresponding Python call raises.
* Python `set`s of strings are modelled by `Finset String`; Python lists by
  `List`.
* Machine strings are Lean `String`s; all string manipulation is done on the
  underlying `List Char` so that every definition reduces inside the kernel.
* Python's unicode `isalnum` is modelled by ASCII `Char.isAlphanum`, which is
  faithful on every identifier occurring in the repository.
-/

namespace BeliefRevision

/-- AST of `cnf_converter_ast.py`: base class `Formula` with subclasses
`Literal`, `Not`, `And`, `Or`, `Implies`, `Iff`; equality is structural. -/
inductive Formula where
  | Literal (name : String)
  | Not (operand : Formula)
  | And (left right : Formula)
  | Or (left right : Formula)
  | Implies (left right : Formula)
  | Iff (left right : Formula)
deriving DecidableEq

namespace Formula

/-- A node is one of the `BinaryOp` subclasses. -/
def isBinaryOp : Formula → Bool
  | .And _ _ | .Or _ _ | .Implies _ _ | .Iff _ _ => true
  | _ => false

/-- `BinaryOp.symbol` of `cnf_converter_ast.py`. -/
def symbolOf : Formula → String
  | .And _ _ => "∧"
  | .Or _ _ => "∨"
  | .Implies _ _ => "→"
  | .Iff _ _ => "↔"
  | _ => ""

end Formula

/-- Validity check performed by `Literal.__init__`: the name with underscores
removed must be a nonempty alphanumeric run, and the name must not start with
a digit. -/
def validLiteralName (s : String) : Bool :=
  let stripped := s.data.filter (fun c => c ≠ '_')
  (!stripped.isEmpty && stripped.all Char.isAlphanum) &&
    !(match s.data with
      | c :: _ => c.isDigit
      | [] => false)

/-- Parenthesize the printed form of a binary operand
(`BinaryOp.__repr__` wraps any binary child in parentheses). -/
def wrapRepr (inner : String) (isBin : Bool) : String :=
  if isBin then "(" ++ inner ++ ")" else inner

/-- `__repr__` of the AST classes: literals print their name, `Not` prints
`¬x` (parenthesizing a binary operand), binary nodes print
`left symbol right` with binary children parenthesized. -/
def reprFormula : Formula → String
  | .Literal n => n
  | .Not x =>
      if x.isBinaryOp then "¬(" ++ reprFormula x ++ ")" else "¬" ++ reprFormula x
  | .And l r =>
      wrapRepr (reprFormula l) l.isBinaryOp ++ " ∧ " ++ wrapRepr (reprFormula r) r.isBinaryOp
  | .Or l r =>
      wrapRepr (reprFormula l) l.isBinaryOp ++ " ∨ " ++ wrapRepr (reprFormula r) r.isBinaryOp
  | .Implies l r =>
      wrapRepr (reprFormula l) l.isBinaryOp ++ " → " ++ wrapRepr (reprFormula r) r.isBinaryOp
  | .Iff l r =>
      wrapRepr (reprFormula l) l.isBinaryOp ++ " ↔ " ++ wrapRepr (reprFormula r) r.isBinaryOp

/-- The seven characters the tokenizer treats as standalone tokens. -/
def opChars : List Char := ['↔', '→', '∨', '∧', '¬', '(', ')']

/-- Flush the (reversed) run of name characters accumulated so far. -/
def flushAcc (acc : List Char) : List String :=
  if acc.isEmpty then [] else [String.mk acc.reverse]

/-- Tokenizer of `Parser.__init__`: every operator/parenthesis character is
surrounded by spaces and then the string is split on whitespace, so each of
the seven special characters is its own token and maximal runs of other
non-whitespace characters are tokens. -/
def tokenizeAux : List Char → List Char → List String
  | [], acc => flushAcc acc
  | c :: cs, acc =>
      if c ∈ opChars then flushAcc acc ++ String.mk [c] :: tokenizeAux cs []
      else if c.isWhitespace then flushAcc acc ++ tokenizeAux cs []
      else tokenizeAux cs (c :: acc)

def tokenize (s : String) : List String := tokenizeAux s.data []

/-- Tokens that `_parse_factor` rejects as "unexpected operator". -/
def factorBadTokens : List String := ["∧", "∨", "→", "↔", ")"]

mutual

/-- `Parser._parse_iff` (fuel-indexed; the fuel only bounds recursion depth
and is chosen large enough in `parseFormula`). -/
def parseIff : Nat → List String → Option (Formula × List String)
  | 0, _ => none
  | n + 1, ts => do
      let (l, ts₁) ← parseImplies n ts
      parseIffLoop n l ts₁

/-- The `while self._current_token() == "↔"` accumulation loop. -/
def parseIffLoop : Nat → Formula → List String → Option (Formula × List String)
  | 0, _, _ => none
  | n + 1, l, ts =>
      match ts with
      | "↔" :: rest => do
          let (r, ts₂) ← parseImplies n rest
          parseIffLoop n (.Iff l r) ts₂
      | _ => some (l, ts)

/-- `Parser._parse_implies`. -/
def parseImplies : Nat → List String → Option (Formula × List String)
  | 0, _ => none
  | n + 1, ts => do
      let (l, ts₁) ← parseOr n ts
      parseImpliesLoop n l ts₁

def parseImpliesLoop : Nat → Formula → List String → Option (Formula × List String)
  | 0, _, _ => none
  | n + 1, l, ts =>
      match ts with
      | "→" :: rest => do
          let (r, ts₂) ← parseOr n rest
          parseImpliesLoop n (.Implies l r) ts₂
      | _ => some (l, ts)

/-- `Parser._parse_or`. -/
def parseOr : Nat → List String → Option (Formula × List String)
  | 0, _ => none
  | n + 1, ts => do
      let (l, ts₁) ← parseAnd n ts
      parseOrLoop n l ts₁

def parseOrLoop : Nat → Formula → List String → Option (Formula × List String)
  | 0, _, _ => none
  | n + 1, l, ts =>
      match ts with
      | "∨" :: rest => do
          let (r, ts₂) ← parseAnd n rest
          parseOrLoop n (.Or l r) ts₂
      | _ => some (l, ts)

/-- `Parser._parse_and`. -/
def parseAnd : Nat → List String → Option (Formula × List String)
  | 0, _ => none
  | n + 1, ts => do
      let (l, ts₁) ← parseNot n ts
      parseAndLoop n l ts₁

def parseAndLoop : Nat → Formula → List String → Option (Formula × List String)
  | 0, _, _ => none
  | n + 1, l, ts =>
      match ts with
      | "∧" :: rest => do
          let (r, ts₂) ← parseNot n rest
          parseAndLoop n (.And l r) ts₂
      | _ => some (l, ts)

/-- `Parser._parse_not`: `¬` stacks arbitrarily. -/
def parseNot : Nat → List String → Option (Formula × List String)
  | 0, _ => none
  | n + 1, ts =>
      match ts with
      | "¬" :: rest => do
          let (x, ts₁) ← parseNot n rest
          some (.Not x, ts₁)
      | _ => parseFactor n ts

/-- `Parser._parse_factor`: a parenthesized formula or a literal; raises on
end of input, a stray operator, or an invalid literal name. -/
def parseFactor : Nat → List String → Option (Formula × List String)
  | 0, _ => none
  | n + 1, ts =>
      match ts with
      | "(" :: rest => do
          let (e, ts₁) ← parseIff n rest
          match ts₁ with
          | ")" :: ts₂ => some (e, ts₂)
          | _ => none
      | [] => none
      | t :: rest =>
          if t ∈ factorBadTokens then none
          else if validLiteralName t then some (.Literal t, rest) else none

end

/-- Fuel that (provably, see the round-trip development) suffices for any
token list the parser can accept. -/
def parseFuel (ts : List String) : Nat := 12 * ts.length + 12

/-- `Parser.parse`: empty input and unconsumed trailing tokens are errors. -/
def parseFormula (s : String) : Option Formula :=
  let ts := tokenize s
  if ts.isEmpty then none
  else
    match parseIff (parseFuel ts) ts with
    | some (f, []) => some f
    | _ => none

/-! ### CNF transformation (`cnf_converter_ast.py`)

The four rewrite stages are embedded as well-founded recursions mirroring the
Python functions case by case.  Each auxiliary function returns the rewritten
tree bundled (in a `Subtype`) with the invariants that make the source's
"recurse into the freshly built tree" calls well-founded, together with
truth-table preservation, which is proved at each construction site. -/

/-- Number of AST nodes. -/
def sizeF : Formula → Nat
  | .Literal _ => 1
  | .Not x => sizeF x + 1
  | .And l r | .Or l r | .Implies l r | .Iff l r => sizeF l + sizeF r + 1

/-- Number of `Iff` nodes. -/
def iffCount : Formula → Nat
  | .Literal _ => 0
  | .Not x => iffCount x
  | .And l r | .Or l r | .Implies l r => iffCount l + iffCount r
  | .Iff l r => iffCount l + iffCount r + 1

/-- Number of `Implies` nodes. -/
def impCount : Formula → Nat
  | .Literal _ => 0
  | .Not x => impCount x
  | .And l r | .Or l r => impCount l + impCount r
  | .Implies l r => impCount l + impCount r + 1
  | .Iff l r => impCount l + impCount r

theorem sizeF_pos (f : Formula) : 0 < sizeF f := by
  cases f <;> simp [sizeF]

/-- Truth-table semantics of a formula under an assignment of the atoms;
this is the reference meaning that the specification's "truth assignment"
cross-checks refer to. -/
def evalF (v : String → Bool) : Formula → Bool
  | .Literal n => v n
  | .Not x => !evalF v x
  | .And l r => evalF v l && evalF v r
  | .Or l r => evalF v l || evalF v r
  | .Implies l r => !evalF v l || evalF v r
  | .Iff l r => evalF v l == evalF v r

/-- The distinct atoms (literal names) of a formula. -/
def atomsF : Formula → Finset String
  | .Literal n => {n}
  | .Not x => atomsF x
  | .And l r | .Or l r | .Implies l r | .Iff l r => atomsF l ∪ atomsF r

/-- Negation-normal-form predicate: negations only on bare literals and no
`Implies`/`Iff` anywhere. -/
def isNNF : Formula → Bool
  | .Literal _ => true
  | .Not (.Literal _) => true
  | .Not _ => false
  | .And l r | .Or l r => isNNF l && isNNF r
  | .Implies _ _ | .Iff _ _ => false

/-- No `And` node reachable through `Or` nodes: the shape of one CNF clause
(`Not` operands are opaque to the distribution stage). -/
def clauseShape : Formula → Bool
  | .Or l r => clauseShape l && clauseShape r
  | .And _ _ => false
  | _ => true

/-- A conjunction of `clauseShape` trees: the shape `distribute` produces. -/
def cnfShapeB : Formula → Bool
  | .And l r => cnfShapeB l && cnfShapeB r
  | f => clauseShape f

theorem cnfShapeB_of_clauseShape {f : Formula} (h : clauseShape f = true) :
    cnfShapeB f = true := by
  cases f <;> first
    | rfl
    | (simp [cnfShapeB, clauseShape] at h ⊢; exact h)
    | (simp [clauseShape] at h)

/-- `eliminate_iff_ast`, with the invariant `iffCount = 0` (making the
source's recursive call on the fresh `(A → B) ∧ (B → A)` tree well-founded)
and truth-table preservation carried in the result. -/
def elimIffAux : (f : Formula) →
    { g : Formula // iffCount g = 0 ∧ ∀ v, evalF v g = evalF v f }
  | .Literal n => ⟨.Literal n, rfl, fun _ => rfl⟩
  | .Not x =>
      match elimIffAux x with
      | ⟨x', hx⟩ =>
          ⟨.Not x', by simpa [iffCount] using hx.1, fun v => by simp [evalF, hx.2 v]⟩
  | .And l r =>
      match elimIffAux l, elimIffAux r with
      | ⟨l', hl⟩, ⟨r', hr⟩ =>
          ⟨.And l' r', by simp [iffCount, hl.1, hr.1],
            fun v => by simp [evalF, hl.2 v, hr.2 v]⟩
  | .Or l r =>
      match elimIffAux l, elimIffAux r with
      | ⟨l', hl⟩, ⟨r', hr⟩ =>
          ⟨.Or l' r', by simp [iffCount, hl.1, hr.1],
            fun v => by simp [evalF, hl.2 v, hr.2 v]⟩
  | .Implies l r =>
      match elimIffAux l, elimIffAux r with
      | ⟨l', hl⟩, ⟨r', hr⟩ =>
          ⟨.Implies l' r', by simp [iffCount, hl.1, hr.1],
            fun v => by simp [evalF, hl.2 v, hr.2 v]⟩
  | .Iff l r =>
      match elimIffAux l, elimIffAux r with
      | ⟨l', hl⟩, ⟨r', hr⟩ =>
          match elimIffAux (.And (.Implies l' r') (.Implies r' l')) with
          | ⟨g, hg⟩ =>
              ⟨g, hg.1, fun v => by
                rw [hg.2 v]
                simp only [evalF, hl.2 v, hr.2 v]
                cases evalF v l <;> cases evalF v r <;> rfl⟩
termination_by f => (iffCount f, sizeF f)
decreasing_by
  all_goals first
    | exact Prod.Lex.right' _ (by simp only [iffCount]; omega) (by simp only [sizeF]; omega)
    | exact Prod.Lex.left _ _ (by simp only [iffCount, hl.1, hr.1]; omega)

/-- `eliminate_iff_ast` of `cnf_converter_ast.py` (total: it raises only on
unknown node types, which the closed AST cannot contain). -/
def eliminate_iff_ast (f : Formula) : Formula := (elimIffAux f).1

theorem iffCount_eliminate_iff_ast (f : Formula) : iffCount (eliminate_iff_ast f) = 0 :=
  (elimIffAux f).2.1

theorem evalF_eliminate_iff_ast (v : String → Bool) (f : Formula) :
    evalF v (eliminate_iff_ast f) = evalF v f :=
  (elimIffAux f).2.2 v

/-- `eliminate_imp_ast` recurses into every node and raises `TypeError`
exactly when an `Iff` node is encountered somewhere in the tree; the
hypothesis `iffCount f = 0` captures the non-raising domain, and the
`impCount` invariant makes the source's recursive call on the fresh
`¬A ∨ B` tree well-founded. -/
def elimImpAux : (f : Formula) → iffCount f = 0 →
    { g : Formula // (impCount g = 0 ∧ iffCount g = 0) ∧ ∀ v, evalF v g = evalF v f }
  | .Literal n, _ => ⟨.Literal n, by simp [impCount, iffCount], fun _ => rfl⟩
  | .Not x, h =>
      match elimImpAux x (by simpa [iffCount] using h) with
      | ⟨x', hx⟩ =>
          ⟨.Not x', by simp [impCount, iffCount, hx.1.1, hx.1.2],
            fun v => by simp [evalF, hx.2 v]⟩
  | .And l r, h =>
      match elimImpAux l (by simp [iffCount] at h; omega),
            elimImpAux r (by simp [iffCount] at h; omega) with
      | ⟨l', hl⟩, ⟨r', hr⟩ =>
          ⟨.And l' r', by simp [impCount, iffCount, hl.1.1, hl.1.2, hr.1.1, hr.1.2],
            fun v => by simp [evalF, hl.2 v, hr.2 v]⟩
  | .Or l r, h =>
      match elimImpAux l (by simp [iffCount] at h; omega),
            elimImpAux r (by simp [iffCount] at h; omega) with
      | ⟨l', hl⟩, ⟨r', hr⟩ =>
          ⟨.Or l' r', by simp [impCount, iffCount, hl.1.1, hl.1.2, hr.1.1, hr.1.2],
            fun v => by simp [evalF, hl.2 v, hr.2 v]⟩
  | .Implies l r, h =>
      match elimImpAux l (by simp [iffCount] at h; omega),
            elimImpAux r (by simp [iffCount] at h; omega) with
      | ⟨l', hl⟩, ⟨r', hr⟩ =>
          match elimImpAux (.Or (.Not l') r') (by simp [iffCount, hl.1.2, hr.1.2]) with
          | ⟨g, hg⟩ =>
              ⟨g, hg.1, fun v => by
                rw [hg.2 v]
                simp only [evalF, hl.2 v, hr.2 v]⟩
  | .Iff _ _, h => absurd h (by simp [iffCount])
termination_by f _ => (impCount f, sizeF f)
decreasing_by
  all_goals first
    | exact Prod.Lex.right' _ (by simp only [impCount]; omega) (by simp only [sizeF]; omega)
    | exact Prod.Lex.left _ _ (by simp only [impCount, hl.1.1, hr.1.1]; omega)

/-- `eliminate_imp_ast` of `cnf_converter_ast.py`; `none` models the
`TypeError` raised when an `Iff` survives (stage-ordering violation). -/
def eliminate_imp_ast (f : Formula) : Option Formula :=
  if h : iffCount f = 0 then some (elimImpAux f h) else none

/-- Termination measure for pushing negations inwards: a negation doubles
the weight of its operand. -/
def nuF : Formula → Nat
  | .Literal _ => 1
  | .Not x => 2 * nuF x
  | .And l r | .Or l r | .Implies l r | .Iff l r => nuF l + nuF r + 1

theorem nuF_pos (f : Formula) : 0 < nuF f := by
  induction f <;> simp only [nuF] <;> omega

/-- `move_negation_inwards_ast` recurses into every node (through double
negations and both De Morgan rewrites) and raises `TypeError` exactly when
the tree contains an `Implies` or `Iff`; the hypotheses capture the
non-raising domain. -/
def nnfAux : (f : Formula) → impCount f = 0 → iffCount f = 0 →
    { g : Formula // isNNF g = true ∧ ∀ v, evalF v g = evalF v f }
  | .Literal n, _, _ => ⟨.Literal n, rfl, fun _ => rfl⟩
  | .And l r, h1, h2 =>
      match nnfAux l (by simp [impCount] at h1; omega) (by simp [iffCount] at h2; omega),
            nnfAux r (by simp [impCount] at h1; omega) (by simp [iffCount] at h2; omega) with
      | ⟨l', hl⟩, ⟨r', hr⟩ =>
          ⟨.And l' r', by simp [isNNF, hl.1, hr.1],
            fun v => by simp [evalF, hl.2 v, hr.2 v]⟩
  | .Or l r, h1, h2 =>
      match nnfAux l (by simp [impCount] at h1; omega) (by simp [iffCount] at h2; omega),
            nnfAux r (by simp [impCount] at h1; omega) (by simp [iffCount] at h2; omega) with
      | ⟨l', hl⟩, ⟨r', hr⟩ =>
          ⟨.Or l' r', by simp [isNNF, hl.1, hr.1],
            fun v => by simp [evalF, hl.2 v, hr.2 v]⟩
  | .Not x, h1, h2 =>
      match x, h1, h2 with
      | .Literal n, _, _ => ⟨.Not (.Literal n), rfl, fun _ => rfl⟩
      | .Not a, h1, h2 =>
          match nnfAux a (by simpa [impCount] using h1) (by simpa [iffCount] using h2) with
          | ⟨g, hg⟩ =>
              ⟨g, hg.1, fun v => by rw [hg.2 v]; simp [evalF]⟩
      | .And a b, h1, h2 =>
          match nnfAux (.Or (.Not a) (.Not b))
              (by simp [impCount] at h1 ⊢; omega) (by simp [iffCount] at h2 ⊢; omega) with
          | ⟨g, hg⟩ =>
              ⟨g, hg.1, fun v => by
                rw [hg.2 v]
                simp only [evalF]
                cases evalF v a <;> cases evalF v b <;> rfl⟩
      | .Or a b, h1, h2 =>
          match nnfAux (.And (.Not a) (.Not b))
              (by simp [impCount] at h1 ⊢; omega) (by simp [iffCount] at h2 ⊢; omega) with
          | ⟨g, hg⟩ =>
              ⟨g, hg.1, fun v => by
                rw [hg.2 v]
                simp only [evalF]
                cases evalF v a <;> cases evalF v b <;> rfl⟩
      | .Implies _ _, h1, _ => absurd h1 (by simp [impCount])
      | .Iff _ _, _, h2 => absurd h2 (by simp [iffCount])
  | .Implies _ _, h1, _ => absurd h1 (by simp [impCount])
  | .Iff _ _, _, h2 => absurd h2 (by simp [iffCount])
termination_by f _ _ => nuF f
decreasing_by
  all_goals simp only [nuF]
  all_goals first
    | omega
    | (have h9 := nuF_pos a; omega)

/-- `move_negation_inwards_ast` of `cnf_converter_ast.py`; `none` models the
`TypeError` raised when an `Implies` or `Iff` survives. -/
def move_negation_inwards_ast (f : Formula) : Option Formula :=
  if h : impCount f = 0 ∧ iffCount f = 0 then some (nnfAux f h.1 h.2) else none

/-- Domain of `distribute_or_over_and_ast`: the function treats `Literal`
and `Not` as opaque base cases and raises `TypeError` exactly when an
`Implies`/`Iff` is reachable through `And`/`Or` nodes from the root. -/
def distOk : Formula → Bool
  | .Literal _ | .Not _ => true
  | .And l r | .Or l r => distOk l && distOk r
  | .Implies _ _ | .Iff _ _ => false

/-- Termination measure for distribution: `Or` multiplies, `And` adds. -/
def dmF : Formula → Nat
  | .Literal _ => 2
  | .Not _ => 2
  | .And l r => dmF l + dmF r + 1
  | .Or l r => dmF l * dmF r
  | .Implies _ _ | .Iff _ _ => 2

theorem dmF_two_le (f : Formula) : 2 ≤ dmF f := by
  induction f with
  | Or l r ihl ihr =>
      have h := Nat.mul_le_mul ihl ihr
      simp only [dmF]
      omega
  | And l r ihl ihr => simp only [dmF]; omega
  | _ => simp [dmF]

theorem dmF_right_step {l r l' rl rr : Formula}
    (hl : dmF l' ≤ dmF l) (hr : dmF rl + dmF rr + 1 ≤ dmF r) :
    dmF (.And (.Or l' rl) (.Or l' rr)) < dmF (.Or l r) := by
  have k1 : dmF l' * (dmF rl + dmF rr + 1) ≤ dmF l * dmF r := Nat.mul_le_mul hl hr
  have e : dmF l' * (dmF rl + dmF rr + 1)
      = dmF l' * dmF rl + dmF l' * dmF rr + dmF l' := by ring
  have k2 := dmF_two_le l'
  simp only [dmF]
  rw [e] at k1
  omega

theorem dmF_left_step {l r r' ll lr : Formula}
    (hl : dmF ll + dmF lr + 1 ≤ dmF l) (hr : dmF r' ≤ dmF r) :
    dmF (.And (.Or ll r') (.Or lr r')) < dmF (.Or l r) := by
  have k1 : (dmF ll + dmF lr + 1) * dmF r' ≤ dmF l * dmF r := Nat.mul_le_mul hl hr
  have e : (dmF ll + dmF lr + 1) * dmF r'
      = dmF ll * dmF r' + dmF lr * dmF r' + dmF r' := by ring
  have k2 := dmF_two_le r'
  simp only [dmF]
  rw [e] at k1
  omega

/-- `isinstance(node, And)` viewed as a partial destructor. -/
def Formula.andParts? : Formula → Option (Formula × Formula)
  | .And a b => some (a, b)
  | _ => none

theorem andParts?_eq_some {f a b : Formula} (h : f.andParts? = some (a, b)) :
    f = .And a b := by
  cases f <;> simp [Formula.andParts?] at h
  exact h.1 ▸ h.2 ▸ rfl

theorem clauseShape_andParts?_none {f : Formula} (h : clauseShape f = true) :
    f.andParts? = none := by
  cases f <;> simp_all [clauseShape, Formula.andParts?]

theorem cnfShapeB_or_parts {l r : Formula} (h : cnfShapeB (.Or l r) = true) :
    clauseShape l = true ∧ clauseShape r = true := by
  simp only [cnfShapeB, clauseShape, Bool.and_eq_true] at h
  exact h

/-- `distribute_or_over_and_ast`: distribute the children first, apply
`A ∨ (B ∧ C) ⇒ (A∨B) ∧ (A∨C)` (right `And` checked first), then
`(A ∧ B) ∨ C ⇒ (A∨C) ∧ (B∨C)`, re-distributing inside every freshly built
tree.  The `dmF` bound in the result type makes that recursion well-founded;
the remaining components record the output shape, preservation of
negation-normal form, that the function fixes already-CNF-shaped trees, and
truth-table preservation. -/
def distAux : (f : Formula) → distOk f = true →
    { g : Formula // (dmF g ≤ dmF f ∧ distOk g = true) ∧ cnfShapeB g = true ∧
        (isNNF f = true → isNNF g = true) ∧ (cnfShapeB f = true → g = f) ∧
        ∀ v, evalF v g = evalF v f }
  | .Literal n, _ =>
      ⟨.Literal n, ⟨le_refl _, rfl⟩, rfl, fun h => h, fun _ => rfl, fun _ => rfl⟩
  | .Not x, _ =>
      ⟨.Not x, ⟨le_refl _, rfl⟩, rfl, fun h => h, fun _ => rfl, fun _ => rfl⟩
  | .And l r, h =>
      match distAux l (by simp [distOk] at h; exact h.1),
            distAux r (by simp [distOk] at h; exact h.2) with
      | ⟨l', hl⟩, ⟨r', hr⟩ =>
          ⟨.And l' r',
            ⟨by have := hl.1.1; have := hr.1.1; simp only [dmF]; omega,
              by simp [distOk, hl.1.2, hr.1.2]⟩,
            by simp [cnfShapeB, hl.2.1, hr.2.1],
            fun hn => by
              simp only [isNNF, Bool.and_eq_true] at hn ⊢
              exact ⟨hl.2.2.1 hn.1, hr.2.2.1 hn.2⟩,
            fun hs => by
              simp only [cnfShapeB, Bool.and_eq_true] at hs
              rw [hl.2.2.2.1 hs.1, hr.2.2.2.1 hs.2],
            fun v => by simp [evalF, hl.2.2.2.2 v, hr.2.2.2.2 v]⟩
  | .Or l r, h =>
      match distAux l (by simp [distOk] at h; exact h.1),
            distAux r (by simp [distOk] at h; exact h.2) with
      | ⟨l', hl⟩, ⟨r', hr⟩ =>
          match hra : r'.andParts? with
          | some (rl, rr) =>
              have hre : r' = .And rl rr := andParts?_eq_some hra
              match distAux (.And (.Or l' rl) (.Or l' rr))
                  (by
                    have := hr.1.2
                    rw [hre] at this
                    simp [distOk] at this
                    simp [distOk, hl.1.2, this.1, this.2]) with
              | ⟨g, hg⟩ =>
                  ⟨g,
                    ⟨by
                      have hb : dmF (.And (.Or l' rl) (.Or l' rr)) < dmF (.Or l r) := by
                        have hr1 := hr.1.1
                        rw [hre] at hr1
                        simp only [dmF] at hr1
                        exact dmF_right_step hl.1.1 hr1
                      exact le_of_lt (lt_of_le_of_lt hg.1.1 hb), hg.1.2⟩,
                    hg.2.1,
                    fun hn => by
                      simp only [isNNF, Bool.and_eq_true] at hn
                      have hnl := hl.2.2.1 hn.1
                      have hnr := hr.2.2.1 hn.2
                      rw [hre] at hnr
                      simp only [isNNF, Bool.and_eq_true] at hnr
                      exact hg.2.2.1 (by simp [isNNF, hnl, hnr.1, hnr.2]),
                    fun hs => by
                      exfalso
                      have hcl := cnfShapeB_or_parts hs
                      have hfix := hr.2.2.2.1 (cnfShapeB_of_clauseShape hcl.2)
                      have : clauseShape r' = true := hfix ▸ hcl.2
                      rw [hre] at this
                      simp [clauseShape] at this,
                    fun v => by
                      rw [hg.2.2.2.2 v]
                      simp only [evalF, hl.2.2.2.2 v]
                      have := hr.2.2.2.2 v
                      rw [hre] at this
                      simp only [evalF] at this
                      rw [← this]
                      cases evalF v l <;> cases evalF v rl <;> cases evalF v rr <;> rfl⟩
          | none =>
              match hla : l'.andParts? with
              | some (ll, lr) =>
                  have hle : l' = .And ll lr := andParts?_eq_some hla
                  match distAux (.And (.Or ll r') (.Or lr r'))
                      (by
                        have := hl.1.2
                        rw [hle] at this
                        simp [distOk] at this
                        simp [distOk, hr.1.2, this.1, this.2]) with
                  | ⟨g, hg⟩ =>
                      ⟨g,
                        ⟨by
                          have hb : dmF (.And (.Or ll r') (.Or lr r')) < dmF (.Or l r) := by
                            have hl1 := hl.1.1
                            rw [hle] at hl1
                            simp only [dmF] at hl1
                            exact dmF_left_step hl1 hr.1.1
                          exact le_of_lt (lt_of_le_of_lt hg.1.1 hb), hg.1.2⟩,
                        hg.2.1,
                        fun hn => by
                          simp only [isNNF, Bool.and_eq_true] at hn
                          have hnl := hl.2.2.1 hn.1
                          have hnr := hr.2.2.1 hn.2
                          rw [hle] at hnl
                          simp only [isNNF, Bool.and_eq_true] at hnl
                          exact hg.2.2.1 (by simp [isNNF, hnl.1, hnl.2, hnr]),
                        fun hs => by
                          exfalso
                          have hcl := cnfShapeB_or_parts hs
                          have hfix := hl.2.2.2.1 (cnfShapeB_of_clauseShape hcl.1)
                          have : clauseShape l' = true := hfix ▸ hcl.1
                          rw [hle] at this
                          simp [clauseShape] at this,
                        fun v => by
                          rw [hg.2.2.2.2 v]
                          simp only [evalF, hr.2.2.2.2 v]
                          have := hl.2.2.2.2 v
                          rw [hle] at this
                          simp only [evalF] at this
                          rw [← this]
                          cases evalF v ll <;> cases evalF v lr <;> cases evalF v r <;> rfl⟩
              | none =>
                  ⟨.Or l' r',
                    ⟨by simp only [dmF]; exact Nat.mul_le_mul hl.1.1 hr.1.1,
                      by simp [distOk, hl.1.2, hr.1.2]⟩,
                    by
                      have cl : clauseShape l' = true := by
                        have := hl.2.1
                        cases l' <;> simp_all [cnfShapeB, clauseShape, Formula.andParts?]
                      have cr : clauseShape r' = true := by
                        have := hr.2.1
                        cases r' <;> simp_all [cnfShapeB, clauseShape, Formula.andParts?]
                      simp [cnfShapeB, clauseShape, cl, cr],
                    fun hn => by
                      simp only [isNNF, Bool.and_eq_true] at hn ⊢
                      exact ⟨hl.2.2.1 hn.1, hr.2.2.1 hn.2⟩,
                    fun hs => by
                      have hcl := cnfShapeB_or_parts hs
                      rw [hl.2.2.2.1 (cnfShapeB_of_clauseShape hcl.1),
                          hr.2.2.2.1 (cnfShapeB_of_clauseShape hcl.2)],
                    fun v => by simp [evalF, hl.2.2.2.2 v, hr.2.2.2.2 v]⟩
termination_by f _ => dmF f
decreasing_by
  · simp only [dmF]; omega
  · simp only [dmF]; omega
  · have := dmF_two_le l; have := dmF_two_le r
    simp only [dmF]
    nlinarith [Nat.mul_le_mul (Nat.le_refl (dmF l)) (dmF_two_le r)]
  · have := dmF_two_le l; have := dmF_two_le r
    simp only [dmF]
    nlinarith [Nat.mul_le_mul (dmF_two_le l) (Nat.le_refl (dmF r))]
  · have hr1 := hr.1.1
    rw [hre] at hr1
    simp only [dmF] at hr1
    exact dmF_right_step hl.1.1 hr1
  · have hl1 := hl.1.1
    rw [hle] at hl1
    simp only [dmF] at hl1
    exact dmF_left_step hl1 hr.1.1

/-- `distribute_or_over_and_ast` of `cnf_converter_ast.py`; `none` models
the `TypeError` on an `Implies`/`Iff` reachable through `And`/`Or`. -/
def distribute_or_over_and_ast (f : Formula) : Option Formula :=
  if h : distOk f then some (distAux f h) else none

/-- The `while prev_ast != current_ast` fixpoint loop of `to_cnf` with its
`MAX_LOOPS = 100` guard (101 distribution passes may run before the
`RecursionError`, modelled by `none`). -/
def distLoopAux : Nat → Formula → Option Formula
  | 0, _ => none
  | fuel + 1, cur =>
      match distribute_or_over_and_ast cur with
      | none => none
      | some nxt => if nxt = cur then some cur else distLoopAux fuel nxt

/-- `to_cnf(formula_string, return_ast=True)` of `cnf_converter_ast.py`:
parse, eliminate `Iff`, eliminate `Implies`, push negations inwards, then
distribute to a fixpoint; `none` models any raised exception. -/
def to_cnf_ast (s : String) : Option Formula := do
  let ast ← parseFormula s
  let noImp ← eliminate_imp_ast (eliminate_iff_ast ast)
  let nnf ← move_negation_inwards_ast noImp
  distLoopAux 101 nnf

theorem isNNF_distOk {f : Formula} (h : isNNF f = true) : distOk f = true := by
  induction f with
  | And l r ihl ihr =>
      simp only [isNNF, Bool.and_eq_true] at h
      simp [distOk, ihl h.1, ihr h.2]
  | Or l r ihl ihr =>
      simp only [isNNF, Bool.and_eq_true] at h
      simp [distOk, ihl h.1, ihr h.2]
  | Implies l r _ _ => simp [isNNF] at h
  | Iff l r _ _ => simp [isNNF] at h
  | _ => simp [distOk]

/-- On a distributable input the fixpoint loop converges after at most two
passes (the first pass already yields a CNF-shaped tree, which the second
pass fixes), so any fuel of at least 2 returns the first pass's result. -/
theorem distLoopAux_eq (fuel : Nat) (f : Formula) (h : distOk f = true) :
    distLoopAux (fuel + 2) f = some (distAux f h).1 := by
  have og : distOk (distAux f h).1 = true := (distAux f h).2.1.2
  have sg : cnfShapeB (distAux f h).1 = true := (distAux f h).2.2.1
  have fixg : (distAux (distAux f h).1 og).1 = (distAux f h).1 :=
    (distAux (distAux f h).1 og).2.2.2.2.1 sg
  show (match distribute_or_over_and_ast f with
        | none => none
        | some nxt => if nxt = f then some f else distLoopAux (fuel + 1) nxt)
      = some (distAux f h).1
  rw [show distribute_or_over_and_ast f = some (distAux f h).1 from by
        simp [distribute_or_over_and_ast, h]]
  by_cases hgf : (distAux f h).1 = f
  · simp [hgf]
  · simp only [if_neg hgf]
    show (match distribute_or_over_and_ast (distAux f h).1 with
          | none => none
          | some nxt => if nxt = (distAux f h).1 then some (distAux f h).1
                        else distLoopAux fuel nxt)
        = some (distAux f h).1
    rw [show distribute_or_over_and_ast (distAux f h).1
          = some (distAux (distAux f h).1 og).1 from by
        simp [distribute_or_over_and_ast, og]]
    rw [fixg]
    simp

/-- On every string the parser accepts, the whole `to_cnf` pipeline
succeeds, returns a tree in conjunctive normal form (negations on bare
literals, no `Implies`/`Iff`, no `And` under an `Or`), and preserves the
truth table of the parsed formula. -/
theorem to_cnf_ast_of_parse {s : String} {ast : Formula}
    (hp : parseFormula s = some ast) :
    ∃ c, to_cnf_ast s = some c ∧ isNNF c = true ∧ cnfShapeB c = true ∧
      ∀ v, evalF v c = evalF v ast := by
  have h1 : iffCount (eliminate_iff_ast ast) = 0 := iffCount_eliminate_iff_ast ast
  have h2 : eliminate_imp_ast (eliminate_iff_ast ast)
      = some (elimImpAux (eliminate_iff_ast ast) h1).1 := by
    simp [eliminate_imp_ast, h1]
  obtain ⟨himp2, hiff2⟩ := (elimImpAux (eliminate_iff_ast ast) h1).2.1
  have h3 : move_negation_inwards_ast (elimImpAux (eliminate_iff_ast ast) h1).1
      = some (nnfAux (elimImpAux (eliminate_iff_ast ast) h1).1 himp2 hiff2).1 := by
    simp [move_negation_inwards_ast, himp2, hiff2]
  have hnnf3 : isNNF (nnfAux (elimImpAux (eliminate_iff_ast ast) h1).1 himp2 hiff2).1 = true :=
    (nnfAux (elimImpAux (eliminate_iff_ast ast) h1).1 himp2 hiff2).2.1
  have hok3 : distOk (nnfAux (elimImpAux (eliminate_iff_ast ast) h1).1 himp2 hiff2).1 = true :=
    isNNF_distOk hnnf3
  have h4 : distLoopAux 101 (nnfAux (elimImpAux (eliminate_iff_ast ast) h1).1 himp2 hiff2).1
      = some (distAux (nnfAux (elimImpAux (eliminate_iff_ast ast) h1).1 himp2 hiff2).1 hok3).1 :=
    distLoopAux_eq 99 _ hok3
  refine ⟨(distAux (nnfAux (elimImpAux (eliminate_iff_ast ast) h1).1 himp2 hiff2).1 hok3).1,
    ?_, ?_, ?_, ?_⟩
  · simp only [to_cnf_ast, hp, Option.bind_eq_bind, Option.some_bind, h2, h3]
    exact h4
  · exact (distAux _ hok3).2.2.2.1 hnnf3
  · exact (distAux _ hok3).2.2.1
  · intro v
    rw [(distAux _ hok3).2.2.2.2.2 v]
    rw [(nnfAux _ himp2 hiff2).2.2 v]
    rw [(elimImpAux (eliminate_iff_ast ast) h1).2.2 v]
    exact evalF_eliminate_iff_ast v ast

/-! ### Clause extraction (`cnf_converter_ast.py`) and the string-level
helpers of `cnf_converter.py` -/

/-- `extract_literals_from_clause`: collect the `repr` strings of the
literals of one clause (an `Or` tree of literals and negated literals);
`none` models the `TypeError` on any other node. -/
def extract_literals_from_clause : Formula → Option (Finset String)
  | .Or l r => do
      pure ((← extract_literals_from_clause l) ∪ (← extract_literals_from_clause r))
  | .Literal n => some {n}
  | .Not (.Literal n) => some {"¬" ++ n}
  | _ => none

/-- `cnf_ast_to_clauses`: recurse through `And` nodes and extract each
non-`And` subtree as one clause; empty literal sets are skipped. -/
def cnf_ast_to_clauses : Formula → Option (List (Finset String))
  | .And l r => do
      pure ((← cnf_ast_to_clauses l) ++ (← cnf_ast_to_clauses r))
  | .Implies _ _ => none
  | .Iff _ _ => none
  | node => do
      let c ← extract_literals_from_clause node
      pure (if c = ∅ then [] else [c])

/-- Python's `str.strip` on the character list. -/
def stripChars (s : List Char) : List Char :=
  ((s.dropWhile Char.isWhitespace).reverse.dropWhile Char.isWhitespace).reverse

/-- Python's `str.split(sep)` (single-character separator, keeping empty
parts) on the character list. -/
def splitOnCharAux (sep : Char) : List Char → List Char → List (List Char)
  | [], acc => [acc.reverse]
  | c :: cs, acc =>
      if c = sep then acc.reverse :: splitOnCharAux sep cs []
      else splitOnCharAux sep cs (c :: acc)

def splitOnChar (sep : Char) (s : List Char) : List (List Char) :=
  splitOnCharAux sep s []

/-- `negate_formula` of `cnf_converter.py`: strip a leading `¬`, otherwise
prefix `¬` (re-wrapping a fully parenthesized formula). -/
def negate_formula (formula : String) : String :=
  if formula.data.head? = some '¬' then String.mk formula.data.tail
  else if formula.data.head? = some '(' ∧ formula.data.getLast? = some ')' then
    "¬(" ++ String.mk formula.data.tail.dropLast ++ ")"
  else "¬" ++ formula

/-- `cnf_to_clauses` of `cnf_converter.py`: split on `∧` into clauses, and
each clause (stripped) on `∨` into stripped literal strings. -/
def cnf_to_clauses (formula : String) : List (Finset String) :=
  (splitOnChar '∧' formula.data).map (fun clause =>
    ((splitOnChar '∨' (stripChars clause)).map
      (fun lit => String.mk (stripChars lit))).toFinset)

/-! ### Resolution engine (`resolution_checker.py`) -/

namespace ResolutionChecker

/-- Leading-`¬` test on a literal string. -/
def isNegLit (l : String) : Bool := l.data.head? = some '¬'

/-- `literal[1:]`. -/
def litTail (l : String) : String := String.mk l.data.tail

/-- The complementary literal: strip a leading `¬` or prefix one. -/
def complementary (l : String) : String :=
  if isNegLit l then litTail l else "¬" ++ l

/-- The tautology test of `ResolutionChecker.resolve`: some literal of the
clause has its complement in the clause (tested textually in both
directions, exactly as the source does). -/
def isTautClause (C : Finset String) : Bool :=
  decide (∃ lit ∈ C, (isNegLit lit = true ∧ litTail lit ∈ C) ∨ ("¬" ++ lit) ∈ C)

theorem isTautClause_iff (C : Finset String) :
    isTautClause C = true ↔
      ∃ lit ∈ C, (isNegLit lit = true ∧ litTail lit ∈ C) ∨ ("¬" ++ lit) ∈ C := by
  simp [isTautClause]

/-- `ResolutionChecker.resolve(clause1, clause2)`: for every literal of the
first clause whose complement lies in the second, the resolvent is the union
minus the complementary pair, kept when it is not a tautology.  (The source
returns a list; the per-round collection immediately deduplicates it into a
set, which the `Finset` image models.) -/
def resolve (clause1 clause2 : Finset String) : Finset (Finset String) :=
  ((clause1.filter (fun l => complementary l ∈ clause2)).image
    (fun l => (clause1 ∪ clause2) \ {l, complementary l})).filter
    (fun r => ¬ isTautClause r)

/-- One round of the `resolution` loop: resolvents of every pair of distinct
known clauses.  (The source iterates over unordered pairs of a `set` in an
unspecified order; on the signed-literal clauses the engine is used with,
`resolve` is symmetric, so the union over ordered pairs is the same set.) -/
def allResolvents (known : Finset (Finset String)) : Finset (Finset String) :=
  known.biUnion (fun A => (known.erase A).biUnion (fun B => resolve A B))

/-- All literal strings occurring in the known clauses. -/
def litUniverse (known : Finset (Finset String)) : Finset String :=
  known.biUnion id

/-- The body of the `while True` loop of `ResolutionChecker.resolution`,
with explicit fuel: report unsatisfiable on an empty resolvent, saturated
(satisfiable) when no new clause appeared, else grow the known set and
repeat.  `resolution_terminates` (claim C7) shows the fuel chosen in
`resolution` never runs out. -/
def resolutionAux : Nat → Finset (Finset String) → Option Bool
  | 0, _ => none
  | n + 1, known =>
      let R := allResolvents known
      if ∅ ∈ R then some true
      else if R ⊆ known then some false
      else resolutionAux n (known ∪ R)

/-- Fuel sufficient for the loop: one more than the number of clauses
expressible over the literals of the input. -/
def resolutionFuel (known : Finset (Finset String)) : Nat :=
  2 ^ (litUniverse known).card + 1

/-- `ResolutionChecker.resolution(clauses)`; the input list is deduplicated
into a set of clauses exactly as the source's `frozenset` conversion does.
The `getD false` fallback is unreachable by `resolution_terminates`. -/
def resolution (clauses : List (Finset String)) : Bool :=
  (resolutionAux (resolutionFuel clauses.toFinset) clauses.toFinset).getD false

end ResolutionChecker

/-! ### Belief base (`belief_base.py`)

`BeliefBase` stores `self.formulas : List (String × Int)`; methods are
embedded as functions from that state (mutating methods return the next
state).  `Option` captures exceptions propagating out of the CNF pipeline. -/

namespace BeliefBase

/-- The stored `self.formulas`: `(formula-text, priority)` pairs. -/
abbrev State := List (String × Int)

/-- `BeliefBase.contains`. -/
def contains_formula (formulas : State) (formula : String) : Bool :=
  formulas.any (fun fp => fp.1 = formula)

/-- `BeliefBase.add_formula`: append unless the text is already present. -/
def add_formula (formulas : State) (formula : String) (priority : Int) : State :=
  if contains_formula formulas formula then formulas else formulas ++ [(formula, priority)]

/-- `BeliefBase.remove_formula`: drop every entry with the given text. -/
def remove_formula (formulas : State) (formula : String) : State :=
  formulas.filter (fun fp => fp.1 ≠ formula)

/-- `BeliefBase.list_formulas`. -/
def list_formulas (formulas : State) : List String := formulas.map Prod.fst

/-- The belief-base side of `BeliefBase.entails`: every stored formula is
converted through `to_cnf(formula, return_ast=True)` and
`cnf_ast_to_clauses`, concatenating the clauses in storage order. -/
def baseClauses : State → Option (List (Finset String))
  | [] => some []
  | (f, _) :: rest => do
      let ast ← to_cnf_ast f
      let cs ← cnf_ast_to_clauses ast
      let more ← baseClauses rest
      pure (cs ++ more)

/-- `BeliefBase.entails`: negate the query with `negate_formula`, split the
negated *string* directly into clauses with `cnf_to_clauses` (no parsing or
CNF conversion of the query), run every stored formula through the AST
pipeline, and apply resolution to the combined clause list. -/
def entails (formulas : State) (entailed_formula : String) : Option Bool := do
  let negClauses := cnf_to_clauses (negate_formula entailed_formula)
  let base ← baseClauses formulas
  pure (ResolutionChecker.resolution (base ++ negClauses))

/-- `BeliefBase.expansion`: reject a duplicate, else append. -/
def expansion (formulas : State) (formula : String) (priority : Int) : State × Bool :=
  if contains_formula formulas formula then (formulas, false)
  else (formulas ++ [(formula, priority)], true)

/-- `itertools.combinations` in its enumeration order (index-lexicographic,
preserving list order inside every emitted tuple). -/
def combinations : Nat → List (String × Int) → List (List (String × Int))
  | 0, _ => [[]]
  | _ + 1, [] => []
  | n + 1, x :: xs => (combinations n xs).map (x :: ·) ++ combinations (n + 1) xs

/-- The temporary belief base built from a candidate subset
(`temp_bb.add_formula` for each member, deduplicating by text). -/
def buildTemp (subset : List (String × Int)) : State :=
  subset.foldl (fun acc fp => add_formula acc fp.1 fp.2) []

/-- The maximality loop of `BeliefBase.contraction`: for every stored entry
outside the subset, re-add it to the temporary base and require the result
to entail the formula again (the entry is removed again afterwards, which
restores `temp` exactly). -/
def maximalCheck (temp : State) (formula : String) (subset : List (String × Int)) :
    List (String × Int) → Option Bool
  | [] => some true
  | fp :: rest =>
      if fp ∈ subset then maximalCheck temp formula subset rest
      else do
        let e ← entails (add_formula temp fp.1 fp.2) formula
        if e then maximalCheck temp formula subset rest else pure false

/-- The inner `for subset in combinations(...)` loop: find the first subset
(in enumeration order) that does not entail the formula and is locally
maximal; the source `break`s as soon as one is found. -/
def firstMaximal (entries : State) (formula : String) :
    List (List (String × Int)) → Option (Option (List (String × Int)))
  | [] => some none
  | subset :: rest => do
      let e ← entails (buildTemp subset) formula
      if e then firstMaximal entries formula rest
      else do
        let m ← maximalCheck (buildTemp subset) formula subset entries
        if m then pure (some subset) else firstMaximal entries formula rest

/-- The outer `for size in range(len(self.formulas), 0, -1)` loop; it stops
at the first size that produced a maximal subset. -/
def scanSizes (entries : State) (formula : String) : List Nat → Option (Option (List (String × Int)))
  | [] => some none
  | size :: sizes => do
      match ← firstMaximal entries formula (combinations size entries) with
      | some s => pure (some s)
      | none => scanSizes entries formula sizes

/-- `range(len(formulas), 0, -1)`. -/
def sizesDesc (n : Nat) : List Nat := (List.range n).reverse.map (· + 1)

/-- The `max(maximal_subsets, key=...)` tie-break.  Because both loops break
at the first maximal subset found, `maximal_subsets` always holds exactly
one element and the `max` returns it; the model keeps the selection step
explicit over that singleton. -/
def pyMaxBySizePriority (cands : List (List (String × Int))) :
    Option (List (String × Int)) :=
  match cands with
  | [] => none
  | x :: xs =>
      some (xs.foldl (fun best y =>
        if best.length < y.length ∨
            (best.length = y.length ∧ (best.map Prod.snd).sum < (y.map Prod.snd).sum)
          then y else best) x)

/-- `BeliefBase.contraction`: vacuity check, then the descending-size scan
for the first maximal non-entailing subset, which replaces the stored list;
returns the next state and the boolean result. -/
def contraction (formulas : State) (formula : String) : Option (State × Bool) := do
  let e ← entails formulas formula
  if !e then pure (formulas, false)
  else do
    match ← scanSizes formulas formula (sizesDesc formulas.length) with
    | none => pure (formulas, false)
    | some best =>
        match pyMaxBySizePriority [best] with
        | none => pure (formulas, false)
        | some chosen => pure (chosen, true)

end BeliefBase

/-- Modelled from the spec: the entailment procedure that §4.4 describes,
negating the query syntactically and then running the full
parse→transform→extract pipeline on the negated form before resolution
(`BeliefBase.entails` in the source instead splits the negated string
directly). -/
def entailsSpec (formulas : BeliefBase.State) (query : String) : Option Bool := do
  let negAst ← to_cnf_ast (negate_formula query)
  let negClauses ← cnf_ast_to_clauses negAst
  let base ← BeliefBase.baseClauses formulas
  pure (ResolutionChecker.resolution (base ++ negClauses))

/-! ### Concrete evaluation helpers

The pipeline functions are defined by well-founded recursion, so concrete
runs are established once per formula string through their equation lemmas
and then chained with the following small stepping lemmas. -/

theorem to_cnf_ast_steps {s : String} {ast f2 f3 c : Formula}
    (hp : parseFormula s = some ast)
    (h2 : eliminate_imp_ast (eliminate_iff_ast ast) = some f2)
    (h3 : move_negation_inwards_ast f2 = some f3)
    (h4 : distLoopAux 101 f3 = some c) :
    to_cnf_ast s = some c := by
  simp only [to_cnf_ast, hp, Option.bind_eq_bind, Option.some_bind, h2, h3, h4]

theorem baseClauses_cons {f : String} {p : Int} {rest : BeliefBase.State} {ast : Formula}
    {cs more : List (Finset String)}
    (h1 : to_cnf_ast f = some ast) (h2 : cnf_ast_to_clauses ast = some cs)
    (h3 : BeliefBase.baseClauses rest = some more) :
    BeliefBase.baseClauses ((f, p) :: rest) = some (cs ++ more) := by
  simp only [BeliefBase.baseClauses, h1, h2, h3, Option.bind_eq_bind, Option.some_bind,
    Option.pure_def]

theorem entails_eval {fs : BeliefBase.State} {q : String} {bc : List (Finset String)}
    (h : BeliefBase.baseClauses fs = some bc) :
    BeliefBase.entails fs q
      = some (ResolutionChecker.resolution (bc ++ cnf_to_clauses (negate_formula q))) := by
  simp only [BeliefBase.entails, h, Option.bind_eq_bind, Option.some_bind, Option.pure_def]

/-- The loop applied to an already CNF-shaped tree returns it unchanged. -/
theorem distLoopAux_id {f : Formula} (hok : distOk f = true) (hs : cnfShapeB f = true) :
    distLoopAux 101 f = some f := by
  have h := distLoopAux_eq 99 f hok
  rwa [(distAux f hok).2.2.2.2.1 hs] at h

/-- For a formula already in CNF shape every stage is the identity, so the
pipeline returns the parsed tree itself. -/
theorem to_cnf_ast_of_stages_id {s : String} {ast : Formula}
    (hp : parseFormula s = some ast)
    (h1 : eliminate_iff_ast ast = ast)
    (h2 : eliminate_imp_ast ast = some ast)
    (h3 : move_negation_inwards_ast ast = some ast)
    (hok : distOk ast = true) (hs : cnfShapeB ast = true) :
    to_cnf_ast s = some ast :=
  to_cnf_ast_steps hp (by rw [h1]; exact h2) h3 (distLoopAux_id hok hs)

/-- `to_cnf` on the atomic string `"P"`. -/
theorem to_cnf_ast_P : to_cnf_ast "P" = some (.Literal "P") :=
  to_cnf_ast_of_stages_id (by rfl)
    (by simp [eliminate_iff_ast, elimIffAux])
    (by simp [eliminate_imp_ast, elimImpAux, iffCount])
    (by simp [move_negation_inwards_ast, nnfAux, impCount, iffCount])
    (by rfl) (by rfl)

/-- `to_cnf` on the atomic string `"A"`. -/
theorem to_cnf_ast_A : to_cnf_ast "A" = some (.Literal "A") :=
  to_cnf_ast_of_stages_id (by rfl)
    (by simp [eliminate_iff_ast, elimIffAux])
    (by simp [eliminate_imp_ast, elimImpAux, iffCount])
    (by simp [move_negation_inwards_ast, nnfAux, impCount, iffCount])
    (by rfl) (by rfl)

/-- `to_cnf` on `"¬P ∨ Q"`. -/
theorem to_cnf_ast_nPQ :
    to_cnf_ast "¬P ∨ Q" = some (.Or (.Not (.Literal "P")) (.Literal "Q")) :=
  to_cnf_ast_of_stages_id (by rfl)
    (by simp [eliminate_iff_ast, elimIffAux])
    (by simp [eliminate_imp_ast, elimImpAux, iffCount])
    (by simp [move_negation_inwards_ast, nnfAux, impCount, iffCount])
    (by rfl) (by rfl)

/-- Pipeline stepping for an input whose `Iff`/`Implies` stages are the
identity but whose negation-normal-form stage does real work, and whose NNF
is already CNF-shaped. -/
theorem to_cnf_ast_steps_nnf {s : String} {ast nnf : Formula}
    (hp : parseFormula s = some ast)
    (h1 : eliminate_iff_ast ast = ast)
    (h2 : eliminate_imp_ast ast = some ast)
    (h3 : move_negation_inwards_ast ast = some nnf)
    (hok : distOk nnf = true) (hs : cnfShapeB nnf = true) :
    to_cnf_ast s = some nnf :=
  to_cnf_ast_steps hp (by rw [h1]; exact h2) h3 (distLoopAux_id hok hs)

/-- `to_cnf` on `"¬(P ∨ Q)"` (the spec-side negated form of `"(P ∨ Q)"`):
the De Morgan stage turns it into `¬P ∧ ¬Q`. -/
theorem to_cnf_ast_negPQ :
    to_cnf_ast "¬(P ∨ Q)" = some (.And (.Not (.Literal "P")) (.Not (.Literal "Q"))) :=
  to_cnf_ast_steps_nnf (by rfl)
    (by simp [eliminate_iff_ast, elimIffAux])
    (by simp [eliminate_imp_ast, elimImpAux, iffCount])
    (by simp [move_negation_inwards_ast, nnfAux, impCount, iffCount])
    (by rfl) (by rfl)

theorem baseClauses_P :
    BeliefBase.baseClauses [("P", 1)] = some [{"P"}] :=
  baseClauses_cons to_cnf_ast_P (by rfl) (by rfl)

theorem baseClauses_A :
    BeliefBase.baseClauses [("A", 1)] = some [{"A"}] :=
  baseClauses_cons to_cnf_ast_A (by rfl) (by rfl)

theorem baseClauses_nPQ2 :
    BeliefBase.baseClauses [("¬P ∨ Q", 2)] = some [{"¬P", "Q"}] :=
  baseClauses_cons to_cnf_ast_nPQ (by rfl) (by rfl)

theorem baseClauses_P_nPQ :
    BeliefBase.baseClauses [("P", 1), ("¬P ∨ Q", 2)] = some [{"P"}, {"¬P", "Q"}] :=
  baseClauses_cons to_cnf_ast_P (by rfl) baseClauses_nPQ2

theorem baseClauses_nPQ_P :
    BeliefBase.baseClauses [("¬P ∨ Q", 2), ("P", 1)] = some [{"¬P", "Q"}, {"P"}] :=
  baseClauses_cons to_cnf_ast_nPQ (by rfl) baseClauses_P

theorem entails_A_B : BeliefBase.entails [("A", 1)] "B" = some false := by
  rw [entails_eval baseClauses_A]
  rfl

theorem entails_P_Q : BeliefBase.entails [("P", 1)] "Q" = some false := by
  rw [entails_eval baseClauses_P]
  rfl

theorem entails_nPQ_Q : BeliefBase.entails [("¬P ∨ Q", 2)] "Q" = some false := by
  rw [entails_eval baseClauses_nPQ2]
  rfl

theorem entails_P_nPQ_Q :
    BeliefBase.entails [("P", 1), ("¬P ∨ Q", 2)] "Q" = some true := by
  rw [entails_eval baseClauses_P_nPQ]
  rfl

theorem entails_nPQ_P_Q :
    BeliefBase.entails [("¬P ∨ Q", 2), ("P", 1)] "Q" = some true := by
  rw [entails_eval baseClauses_nPQ_P]
  rfl

/-- The code's `entails` on base `{P}` and query `"(P ∨ Q)"`: the negated
query string `"¬(P ∨ Q)"` is split textually into the junk clause
`{"¬(P", "Q)"}`, no complementary pair exists, and the verdict is `false`
even though `P ⊨ P ∨ Q`. -/
theorem entails_P_PorQ : BeliefBase.entails [("P", 1)] "(P ∨ Q)" = some false := by
  rw [entails_eval baseClauses_P]
  rfl

/-- The spec's entailment procedure on base `{P}` and query `"(P ∨ Q)"`:
the negated query is parsed and converted, giving clauses `{¬P}, {¬Q}`, and
resolution refutes `{P}, {¬P}, {¬Q}`. -/
theorem entailsSpec_P_PorQ : entailsSpec [("P", 1)] "(P ∨ Q)" = some true := by
  have h1 : negate_formula "(P ∨ Q)" = "¬(P ∨ Q)" := by rfl
  simp only [entailsSpec, h1, to_cnf_ast_negPQ, Option.bind_eq_bind, Option.some_bind,
    baseClauses_P]
  rfl

/-! ### Structure of a successful contraction -/

namespace BeliefBase

theorem mem_combinations_sublist :
    ∀ (l : List (String × Int)) (n : Nat) (s : List (String × Int)),
      s ∈ combinations n l → s.Sublist l := by
  intro l
  induction l with
  | nil =>
      intro n s hs
      cases n with
      | zero => simp [combinations] at hs; simp [hs]
      | succ n => simp [combinations] at hs
  | cons x xs ih =>
      intro n s hs
      cases n with
      | zero => simp [combinations] at hs; simp [hs]
      | succ n =>
          simp only [combinations, List.mem_append, List.mem_map] at hs
          rcases hs with ⟨t, ht, rfl⟩ | hs
          · exact List.Sublist.cons₂ x (ih n t ht)
          · exact List.Sublist.cons x (ih (n + 1) s hs)

theorem firstMaximal_spec {entries : State} {formula : String} :
    ∀ {cands : List (List (String × Int))} {s : List (String × Int)},
      firstMaximal entries formula cands = some (some s) →
      s ∈ cands ∧ entails (buildTemp s) formula = some false ∧
        maximalCheck (buildTemp s) formula s entries = some true := by
  intro cands
  induction cands with
  | nil => intro s h; simp [firstMaximal] at h
  | cons subset rest ih =>
      intro s h
      simp only [firstMaximal, Option.bind_eq_bind] at h
      cases he : entails (buildTemp subset) formula with
      | none => rw [he] at h; simp at h
      | some e =>
          rw [he] at h
          simp only [Option.some_bind] at h
          cases e with
          | true =>
              simp only [if_true] at h
              obtain ⟨hm, h1, h2⟩ := ih h
              exact ⟨List.mem_cons_of_mem _ hm, h1, h2⟩
          | false =>
              simp only [if_false, Bool.false_eq_true] at h
              cases hm : maximalCheck (buildTemp subset) formula subset entries with
              | none => rw [hm] at h; simp at h
              | some m =>
                  rw [hm] at h
                  simp only [Option.some_bind] at h
                  cases m with
                  | true =>
                      simp only [if_true, Option.pure_def, Option.some.injEq,
                        Option.some.injEq] at h
                      subst h
                      exact ⟨List.mem_cons_self _ _, he, hm⟩
                  | false =>
                      simp only [if_false, Bool.false_eq_true] at h
                      obtain ⟨hmem, h1, h2⟩ := ih h
                      exact ⟨List.mem_cons_of_mem _ hmem, h1, h2⟩

theorem scanSizes_spec {entries : State} {formula : String} :
    ∀ {sizes : List Nat} {s : List (String × Int)},
      scanSizes entries formula sizes = some (some s) →
      (∃ k ∈ sizes, s ∈ combinations k entries) ∧
        entails (buildTemp s) formula = some false ∧
        maximalCheck (buildTemp s) formula s entries = some true := by
  intro sizes
  induction sizes with
  | nil => intro s h; simp [scanSizes] at h
  | cons size rest ih =>
      intro s h
      simp only [scanSizes, Option.bind_eq_bind] at h
      cases hf : firstMaximal entries formula (combinations size entries) with
      | none => rw [hf] at h; simp at h
      | some o =>
          rw [hf] at h
          simp only [Option.some_bind] at h
          cases o with
          | none =>
              obtain ⟨⟨k, hk, hmem⟩, h1, h2⟩ := ih h
              exact ⟨⟨k, List.mem_cons_of_mem _ hk, hmem⟩, h1, h2⟩
          | some t =>
              simp only [Option.pure_def, Option.some.injEq] at h
              subst h
              obtain ⟨hmem, h1, h2⟩ := firstMaximal_spec hf
              exact ⟨⟨size, List.mem_cons_self _ _, hmem⟩, h1, h2⟩

/-- Anatomy of every successful `contraction` run: the new state is the
first maximal non-entailing subset found by the descending-size scan; in
particular it is a sublist of the previous state, it does not entail the
contracted formula, and re-adding any excluded entry restores entailment. -/
theorem contraction_success_spec {fs : State} {f : String} {st : State}
    (h : contraction fs f = some (st, true)) :
    st.Sublist fs ∧ entails (buildTemp st) f = some false ∧
      maximalCheck (buildTemp st) f st fs = some true := by
  simp only [contraction, Option.bind_eq_bind] at h
  cases he : entails fs f with
  | none => rw [he] at h; simp at h
  | some e =>
      rw [he] at h
      simp only [Option.some_bind] at h
      cases e with
      | false => simp [Option.pure_def] at h
      | true =>
          simp only [Bool.not_true, if_false, Bool.false_eq_true] at h
          cases hs : scanSizes fs f (sizesDesc fs.length) with
          | none => rw [hs] at h; simp at h
          | some o =>
              rw [hs] at h
              simp only [Option.some_bind] at h
              cases o with
              | none => simp [Option.pure_def] at h
              | some best =>
                  simp only [pyMaxBySizePriority, List.foldl_nil, Option.pure_def,
                    Option.some.injEq, Prod.mk.injEq] at h
                  obtain ⟨heq, -⟩ := h
                  obtain ⟨⟨k, -, hmem⟩, h1, h2⟩ := scanSizes_spec hs
                  rw [← heq]
                  exact ⟨mem_combinations_sublist fs k best hmem, h1, h2⟩

/-- The no-op paths of `contraction` return the state unchanged. -/
theorem contraction_false_unchanged {fs : State} {f : String} {st : State}
    (h : contraction fs f = some (st, false)) : st = fs := by
  simp only [contraction, Option.bind_eq_bind] at h
  cases he : entails fs f with
  | none => rw [he] at h; simp at h
  | some e =>
      rw [he] at h
      simp only [Option.some_bind] at h
      cases e with
      | false =>
          simp only [Bool.not_false, if_true, Option.pure_def, Option.some.injEq,
            Prod.mk.injEq] at h
          exact h.1.symm
      | true =>
          simp only [Bool.not_true, if_false, Bool.false_eq_true] at h
          cases hs : scanSizes fs f (sizesDesc fs.length) with
          | none => rw [hs] at h; simp at h
          | some o =>
              rw [hs] at h
              simp only [Option.some_bind] at h
              cases o with
              | none =>
                  simp only [Option.pure_def, Option.some.injEq, Prod.mk.injEq] at h
                  exact h.1.symm
              | some best =>
                  simp only [pyMaxBySizePriority, List.foldl_nil, Option.pure_def,
                    Option.some.injEq, Prod.mk.injEq] at h
                  exact absurd h.2 (by simp)

/-- Vacuity path: when the base does not entail the formula, `contraction`
returns the state unchanged with result `False`. -/
theorem contraction_vacuity {fs : State} {f : String}
    (h : entails fs f = some false) : contraction fs f = some (fs, false) := by
  simp only [contraction, Option.bind_eq_bind, h, Option.some_bind, Bool.not_false,
    if_true, Option.pure_def]

end BeliefBase

/-- Vacuity run of the source demo: contracting non-entailed `"B"` from
`{A}` leaves the base unchanged and returns `False`. -/
theorem contraction_A_B :
    BeliefBase.contraction [("A", 1)] "B" = some ([("A", 1)], false) :=
  BeliefBase.contraction_vacuity entails_A_B

/-- Full contraction run on the base `[("P", 1), ("¬P ∨ Q", 2)]` (the
spec's scenario with the two entries inserted in the opposite order):
the first size-1 subset in enumeration order, `{("P", 1)}`, is maximal
non-entailing and is chosen — the higher-priority entry is discarded. -/
theorem contraction_P_first :
    BeliefBase.contraction [("P", 1), ("¬P ∨ Q", 2)] "Q" = some ([("P", 1)], true) := by
  simp only [BeliefBase.contraction, BeliefBase.scanSizes, BeliefBase.firstMaximal,
    BeliefBase.maximalCheck, BeliefBase.combinations, BeliefBase.buildTemp,
    BeliefBase.add_formula, BeliefBase.contains_formula, BeliefBase.sizesDesc,
    BeliefBase.pyMaxBySizePriority,
    List.foldl, List.any, List.range, List.range.loop, List.reverse, List.reverseAux,
    List.map, List.append_nil, List.nil_append, List.cons_append, List.mem_cons,
    List.mem_singleton, List.not_mem_nil,
    entails_P_nPQ_Q, entails_P_Q, entails_nPQ_Q, entails_nPQ_P_Q,
    Option.bind_eq_bind, Option.some_bind, Option.pure_def,
    Bool.not_true, Bool.not_false, if_true, if_false, List.foldl_nil]
  simp [entails_P_nPQ_Q, entails_P_Q, entails_nPQ_Q, entails_nPQ_P_Q]

/-- The alternative size-1 subset `{("¬P ∨ Q", 2)}` also passes the source's
local-maximality test (re-adding `("P", 1)` restores entailment of `Q`). -/
theorem maximalCheck_alternative :
    BeliefBase.maximalCheck [("¬P ∨ Q", 2)] "Q" [("¬P ∨ Q", 2)]
      [("P", 1), ("¬P ∨ Q", 2)] = some true := by
  simp only [BeliefBase.maximalCheck, BeliefBase.add_formula, BeliefBase.contains_formula,
    List.any, List.mem_cons, List.mem_singleton, List.not_mem_nil, List.cons_append,
    List.nil_append, Option.bind_eq_bind, Option.some_bind, Option.pure_def]
  simp [entails_nPQ_P_Q]

/-- Every `Not` node wraps a bare `Literal`. -/
def notsOnLiterals : Formula → Bool
  | .Literal _ => true
  | .Not (.Literal _) => true
  | .Not _ => false
  | .And l r | .Or l r | .Implies l r | .Iff l r => notsOnLiterals l && notsOnLiterals r

theorem isNNF_decomp {f : Formula} (h : isNNF f = true) :
    impCount f = 0 ∧ iffCount f = 0 ∧ notsOnLiterals f = true := by
  induction f with
  | Literal n => simp [impCount, iffCount, notsOnLiterals]
  | Not x ih =>
      cases x <;> simp_all [isNNF, impCount, iffCount, notsOnLiterals]
  | And l r ihl ihr =>
      simp only [isNNF, Bool.and_eq_true] at h
      obtain ⟨h1l, h2l, h3l⟩ := ihl h.1
      obtain ⟨h1r, h2r, h3r⟩ := ihr h.2
      simp [impCount, iffCount, notsOnLiterals, h1l, h2l, h3l, h1r, h2r, h3r]
  | Or l r ihl ihr =>
      simp only [isNNF, Bool.and_eq_true] at h
      obtain ⟨h1l, h2l, h3l⟩ := ihl h.1
      obtain ⟨h1r, h2r, h3r⟩ := ihr h.2
      simp [impCount, iffCount, notsOnLiterals, h1l, h2l, h3l, h1r, h2r, h3r]
  | Implies l r _ _ => simp [isNNF] at h
  | Iff l r _ _ => simp [isNNF] at h

/-! ### Claim theorems -/

/-- C1: the claim states that `entails` runs the parse→transform→extract
CNF pipeline on the syntactically negated query.  The code instead splits
the negated query *string* directly into clauses (`cnf_to_clauses`) with no
parsing or transformation, contradicting both the claim and the method's
own proof-by-contradiction docstring: on base `{("P", 1)}` and query
`"(P ∨ Q)"` the code answers `false`, while the procedure the claim
describes (`entailsSpec`, modelled from the spec) answers `true`. -/
theorem C1_entails_pipeline_divergence :
    BeliefBase.entails [("P", 1)] "(P ∨ Q)" = some false ∧
    entailsSpec [("P", 1)] "(P ∨ Q)" = some true :=
  ⟨entails_P_PorQ, entailsSpec_P_PorQ⟩

/-- C2, counterexample: contracting `"Q"` from `[("P", 1), ("¬P ∨ Q", 2)]`
replaces the base with `[("P", 1)]` (priority sum 1), although
`[("¬P ∨ Q", 2)]` is an equally large maximal non-entailing subset with the
larger priority sum 2 — the replacement is *not* the priority-sum maximizer
among maximal subsets of the largest size, and the higher-priority entry is
discarded although a choice exists. -/
theorem C2_counterexample :
    BeliefBase.contraction [("P", 1), ("¬P ∨ Q", 2)] "Q" = some ([("P", 1)], true) ∧
    BeliefBase.entails (BeliefBase.buildTemp [("¬P ∨ Q", 2)]) "Q" = some false ∧
    BeliefBase.maximalCheck (BeliefBase.buildTemp [("¬P ∨ Q", 2)]) "Q" [("¬P ∨ Q", 2)]
      [("P", 1), ("¬P ∨ Q", 2)] = some true ∧
    ([("¬P ∨ Q", 2)] : List (String × Int)).length = ([("P", 1)] : List (String × Int)).length ∧
    (([("P", 1)] : List (String × Int)).map Prod.snd).sum
      < (([("¬P ∨ Q", 2)] : List (String × Int)).map Prod.snd).sum :=
  ⟨contraction_P_first, entails_nPQ_Q, maximalCheck_alternative, rfl, by norm_num⟩

/-- C2, amended: when contraction mutates the base, the replacement is the
first locally-maximal non-entailing subset found by the size-descending,
combination-ordered enumeration: it is a sublist of the stored entries, its
temporary base does not entail the formula, and re-adding any single
excluded entry restores entailment.  No priority-sum selection among rival
maximal subsets takes place (the source's `max` only ever sees the single
collected candidate). -/
theorem C2_contraction_first_maximal {fs : BeliefBase.State} {f : String}
    {st : BeliefBase.State}
    (h : BeliefBase.contraction fs f = some (st, true)) :
    st.Sublist fs ∧ BeliefBase.entails (BeliefBase.buildTemp st) f = some false ∧
      BeliefBase.maximalCheck (BeliefBase.buildTemp st) f st fs = some true :=
  BeliefBase.contraction_success_spec h

theorem C2_contraction_first_maximal_witness :
    ([("P", 1)] : BeliefBase.State).Sublist [("P", 1), ("¬P ∨ Q", 2)] ∧
    BeliefBase.entails (BeliefBase.buildTemp [("P", 1)]) "Q" = some false ∧
      BeliefBase.maximalCheck (BeliefBase.buildTemp [("P", 1)]) "Q" [("P", 1)]
        [("P", 1), ("¬P ∨ Q", 2)] = some true :=
  C2_contraction_first_maximal contraction_P_first

/-- C3, counterexample: `"B"` is not entailed by the base `{("A", 1)}`, and
`contraction` indeed leaves the stored entries unchanged — but it returns
`False` (reported as failure), not success as the claim states. -/
theorem C3_counterexample :
    BeliefBase.entails [("A", 1)] "B" = some false ∧
    BeliefBase.contraction [("A", 1)] "B" = some ([("A", 1)], false) :=
  ⟨entails_A_B, contraction_A_B⟩

/-- C3, amended: for every formula that is not entailed, contraction is a
no-op that leaves the stored entries completely unchanged and returns
`False` (the vacuity branch reports failure, not success). -/
theorem C3_vacuity_noop {fs : BeliefBase.State} {f : String}
    (h : BeliefBase.entails fs f = some false) :
    BeliefBase.contraction fs f = some (fs, false) :=
  BeliefBase.contraction_vacuity h

theorem C3_vacuity_noop_witness :
    BeliefBase.contraction [("A", 1)] "B" = some ([("A", 1)], false) :=
  C3_vacuity_noop entails_A_B

/-- C4: on every formula string the parser accepts (the ≤ 6 distinct-atoms
bound of the claim is carried as a hypothesis), the CNF pipeline succeeds
and its output has the same truth table as the parsed input. -/
theorem C4_to_cnf_preserves_truth_table (s : String) (ast : Formula)
    (hp : parseFormula s = some ast) (hatoms : (atomsF ast).card ≤ 6) :
    ∃ c, to_cnf_ast s = some c ∧ ∀ v, evalF v c = evalF v ast := by
  obtain ⟨c, h1, _, _, h4⟩ := to_cnf_ast_of_parse hp
  exact ⟨c, h1, h4⟩

theorem C4_to_cnf_preserves_truth_table_witness :
    parseFormula "p → q" = some (.Implies (.Literal "p") (.Literal "q")) ∧
    ∃ c, to_cnf_ast "p → q" = some c ∧
      ∀ v, evalF v c = evalF v (.Implies (.Literal "p") (.Literal "q")) :=
  ⟨rfl, C4_to_cnf_preserves_truth_table "p → q" (.Implies (.Literal "p") (.Literal "q"))
    rfl (by decide)⟩

/-- C5: on every string the parser accepts, `to_cnf` returns a tree with no
`Implies` node, no `Iff` node, every `Not` wrapping a bare `Literal`, and
in conjunction-of-disjunctions shape (no `And` beneath an `Or`). -/
theorem C5_to_cnf_shape (s : String) (ast : Formula)
    (hp : parseFormula s = some ast) :
    ∃ c, to_cnf_ast s = some c ∧ impCount c = 0 ∧ iffCount c = 0 ∧
      notsOnLiterals c = true ∧ cnfShapeB c = true := by
  obtain ⟨c, h1, h2, h3, -⟩ := to_cnf_ast_of_parse hp
  obtain ⟨hi, hf, hn⟩ := isNNF_decomp h2
  exact ⟨c, h1, hi, hf, hn, h3⟩

theorem C5_to_cnf_shape_witness :
    ∃ c, to_cnf_ast "p → q" = some c ∧ impCount c = 0 ∧ iffCount c = 0 ∧
      notsOnLiterals c = true ∧ cnfShapeB c = true :=
  C5_to_cnf_shape "p → q" (.Implies (.Literal "p") (.Literal "q")) rfl

/-- C9: belief-base mutations are atomic in the embedding: `expansion`
either leaves the list unchanged (duplicate, result `False`) or appends the
single new entry (result `True`); every `contraction` run that reports
`False` (vacuity or no subset found) returns the list unchanged, and every
successful run replaces the list wholesale by the selected sublist of the
old entries.  Exceptions (`none`) abort before the single assignment to
`self.formulas`, and `entails` is a pure query of the state (it returns no
state at all in the embedding). -/
theorem C9_mutations_atomic :
    (∀ (fs : BeliefBase.State) (f : String) (p : Int),
      BeliefBase.expansion fs f p = (fs, false) ∨
        BeliefBase.expansion fs f p = (fs ++ [(f, p)], true)) ∧
    (∀ (fs : BeliefBase.State) (f : String) (st : BeliefBase.State),
      BeliefBase.contraction fs f = some (st, false) → st = fs) ∧
    (∀ (fs : BeliefBase.State) (f : String) (st : BeliefBase.State),
      BeliefBase.contraction fs f = some (st, true) → st.Sublist fs) := by
  refine ⟨fun fs f p => ?_, fun fs f st h => BeliefBase.contraction_false_unchanged h,
    fun fs f st h => (BeliefBase.contraction_success_spec h).1⟩
  by_cases hc : BeliefBase.contains_formula fs f
  · exact Or.inl (by simp [BeliefBase.expansion, hc])
  · exact Or.inr (by simp [BeliefBase.expansion, hc])

theorem C9_mutations_atomic_witness :
    (BeliefBase.expansion [("A", 1)] "X" 2 = ([("A", 1)], false) ∨
      BeliefBase.expansion [("A", 1)] "X" 2 = ([("A", 1), ("X", 2)], true)) ∧
    ([("A", 1)] : BeliefBase.State) = [("A", 1)] ∧
    ([("P", 1)] : BeliefBase.State).Sublist [("P", 1), ("¬P ∨ Q", 2)] :=
  ⟨C9_mutations_atomic.1 [("A", 1)] "X" 2,
    C9_mutations_atomic.2.1 [("A", 1)] "B" [("A", 1)] contraction_A_B,
    C9_mutations_atomic.2.2 [("P", 1), ("¬P ∨ Q", 2)] "Q" [("P", 1)] contraction_P_first⟩

/-- C10: a successful contraction replaces the entry list by one of the
`itertools.combinations` tuples, which preserves positional order — the new
list is a sublist of the old one (same relative order, same priorities),
and `list_formulas` afterwards reports the survivors in their original
insertion order. -/
theorem C10_contraction_sublist {fs : BeliefBase.State} {f : String}
    {st : BeliefBase.State}
    (h : BeliefBase.contraction fs f = some (st, true)) :
    st.Sublist fs ∧
      (BeliefBase.list_formulas st).Sublist (BeliefBase.list_formulas fs) := by
  have hs := (BeliefBase.contraction_success_spec h).1
  exact ⟨hs, hs.map Prod.fst⟩

theorem C10_contraction_sublist_witness :
    ([("P", 1)] : BeliefBase.State).Sublist [("P", 1), ("¬P ∨ Q", 2)] ∧
      (BeliefBase.list_formulas [("P", 1)]).Sublist
        (BeliefBase.list_formulas [("P", 1), ("¬P ∨ Q", 2)]) :=
  C10_contraction_sublist contraction_P_first

/-! ### Termination of the resolution loop (claim C7) -/

namespace ResolutionChecker

theorem resolve_subset_union {A B C : Finset String} (h : C ∈ resolve A B) :
    C ⊆ A ∪ B := by
  simp only [resolve, Finset.mem_filter, Finset.mem_image] at h
  obtain ⟨⟨l, -, rfl⟩, -⟩ := h
  exact Finset.sdiff_subset

theorem allResolvents_subset_litUniverse {known : Finset (Finset String)}
    {C : Finset String} (h : C ∈ allResolvents known) : C ⊆ litUniverse known := by
  simp only [allResolvents, Finset.mem_biUnion, Finset.mem_erase] at h
  obtain ⟨A, hA, B, ⟨-, hB⟩, hC⟩ := h
  intro x hx
  have := resolve_subset_union hC hx
  simp only [Finset.mem_union] at this
  simp only [litUniverse, Finset.mem_biUnion, id]
  rcases this with hxa | hxb
  · exact ⟨A, hA, hxa⟩
  · exact ⟨B, hB, hxb⟩

theorem known_subset_powerset (known : Finset (Finset String)) :
    known ⊆ (litUniverse known).powerset := by
  intro C hC
  simp only [Finset.mem_powerset]
  intro x hx
  simp only [litUniverse, Finset.mem_biUnion, id]
  exact ⟨C, hC, hx⟩

theorem litUniverse_union_eq {known : Finset (Finset String)}
    {R : Finset (Finset String)} (h : ∀ C ∈ R, C ⊆ litUniverse known) :
    litUniverse (known ∪ R) = litUniverse known := by
  apply Finset.Subset.antisymm
  · intro x hx
    simp only [litUniverse, Finset.mem_biUnion, Finset.mem_union, id] at hx
    obtain ⟨C, hC | hC, hxC⟩ := hx
    · simp only [litUniverse, Finset.mem_biUnion, id]
      exact ⟨C, hC, hxC⟩
    · exact h C hC hxC
  · intro x hx
    simp only [litUniverse, Finset.mem_biUnion, id] at hx ⊢
    obtain ⟨C, hC, hxC⟩ := hx
    exact ⟨C, Finset.mem_union_left _ hC, hxC⟩

/-- The loop always answers within the fuel bound: the known set only grows
inside the fixed finite family of clauses over the input's literals. -/
theorem resolutionAux_total :
    ∀ (n : Nat) (known : Finset (Finset String)),
      (litUniverse known).powerset.card < n + known.card →
      ∃ b, resolutionAux n known = some b := by
  intro n
  induction n with
  | zero =>
      intro known h
      have := Finset.card_le_card (known_subset_powerset known)
      omega
  | succ n ih =>
      intro known h
      simp only [resolutionAux]
      by_cases h1 : ∅ ∈ allResolvents known
      · exact ⟨true, by simp [h1]⟩
      · by_cases h2 : allResolvents known ⊆ known
        · exact ⟨false, by simp [h1, h2]⟩
        · have hR : ∀ C ∈ allResolvents known, C ⊆ litUniverse known :=
            fun C hC => allResolvents_subset_litUniverse hC
          have huniv := litUniverse_union_eq hR
          have hgrow : known ⊂ known ∪ allResolvents known := by
            refine Finset.ssubset_iff_subset_ne.mpr ⟨Finset.subset_union_left, ?_⟩
            intro heq
            exact h2 (fun C hC => by
              have : C ∈ known ∪ allResolvents known := Finset.mem_union_right _ hC
              rwa [← heq] at this)
          have hcard := Finset.card_lt_card hgrow
          obtain ⟨b, hb⟩ := ih (known ∪ allResolvents known) (by rw [huniv]; omega)
          exact ⟨b, by simp [h1, h2, hb]⟩

end ResolutionChecker

/-- C7: the resolution loop terminates on every input: with the fuel
computed in `resolution` it always returns a verdict (so the `getD false`
fallback is dead code), every derived resolvent only mentions literal
strings occurring in the known clauses, and each iteration only grows the
known-clause set. -/
theorem C7_resolution_terminates :
    (∀ clauses : List (Finset String),
      ∃ b, ResolutionChecker.resolutionAux
          (ResolutionChecker.resolutionFuel clauses.toFinset) clauses.toFinset = some b ∧
        ResolutionChecker.resolution clauses = b) ∧
    (∀ (known : Finset (Finset String)) (C : Finset String),
      C ∈ ResolutionChecker.allResolvents known →
        C ⊆ ResolutionChecker.litUniverse known) ∧
    (∀ known : Finset (Finset String),
      known ⊆ known ∪ ResolutionChecker.allResolvents known) := by
  refine ⟨fun clauses => ?_,
    fun known C hC => ResolutionChecker.allResolvents_subset_litUniverse hC,
    fun known => Finset.subset_union_left⟩
  obtain ⟨b, hb⟩ := ResolutionChecker.resolutionAux_total
    (ResolutionChecker.resolutionFuel clauses.toFinset) clauses.toFinset (by
      have h1 := Finset.card_le_card
        (ResolutionChecker.known_subset_powerset clauses.toFinset)
      have h2 : (ResolutionChecker.litUniverse clauses.toFinset).powerset.card
          = 2 ^ (ResolutionChecker.litUniverse clauses.toFinset).card :=
        Finset.card_powerset _
      simp only [ResolutionChecker.resolutionFuel]
      omega)
  exact ⟨b, hb, by simp [ResolutionChecker.resolution, hb]⟩

theorem C7_resolution_terminates_witness :
    (∃ b, ResolutionChecker.resolutionAux
        (ResolutionChecker.resolutionFuel ([{"P"}, {"¬P"}] : List (Finset String)).toFinset)
        ([{"P"}, {"¬P"}] : List (Finset String)).toFinset = some b ∧
      ResolutionChecker.resolution [{"P"}, {"¬P"}] = b) ∧
    (∅ : Finset String) ⊆ ResolutionChecker.litUniverse {{"P"}, {"¬P"}} :=
  ⟨C7_resolution_terminates.1 [{"P"}, {"¬P"}],
    C7_resolution_terminates.2.1 {{"P"}, {"¬P"}} ∅ (by decide)⟩

/-! ### Parse–print round trip (claim C8) -/

/-- Every literal name in the tree passes the `Literal` constructor's
validity check. -/
def validNamesF : Formula → Bool
  | .Literal n => validLiteralName n
  | .Not x => validNamesF x
  | .And l r | .Or l r | .Implies l r | .Iff l r => validNamesF l && validNamesF r

/-- Characters a valid literal name may contain. -/
def goodChar (c : Char) : Bool := c.isAlphanum || c = '_'

theorem validLiteralName_chars {t : String} (h : validLiteralName t = true) :
    t.data ≠ [] ∧ ∀ c ∈ t.data, goodChar c = true := by
  simp only [validLiteralName, Bool.and_eq_true] at h
  obtain ⟨⟨hne, hall⟩, -⟩ := h
  constructor
  · intro hd
    rw [hd] at hne
    simp at hne
  · intro c hc
    by_cases hu : c = '_'
    · simp [goodChar, hu]
    · have hcf : c ∈ t.data.filter (fun c => c ≠ '_') := by
        rw [List.mem_filter]
        exact ⟨hc, by simp [hu]⟩
      rw [List.all_eq_true] at hall
      simp only [goodChar, Bool.or_eq_true]
      exact Or.inl (hall c hcf)

theorem goodChar_not_op {c : Char} (h : goodChar c = true) : c ∉ opChars := by
  intro hc
  simp only [opChars, List.mem_cons, List.not_mem_nil, or_false] at hc
  rcases hc with rfl | rfl | rfl | rfl | rfl | rfl | rfl <;> revert h <;> decide

theorem goodChar_not_ws {c : Char} (h : goodChar c = true) : c.isWhitespace = false := by
  by_contra hw
  simp only [Bool.not_eq_false] at hw
  have hc : ((c = ' ' ∨ c = '\t') ∨ c = '\r') ∨ c = '\n' := by
    simpa [Char.isWhitespace, Bool.or_eq_true, decide_eq_true_eq] using hw
  rcases hc with ((rfl | rfl) | rfl) | rfl <;> revert h <;> decide

theorem tokenizeAux_good (xs : List Char) :
    ∀ acc, (∀ c ∈ xs, goodChar c = true) →
      tokenizeAux xs acc = flushAcc (xs.reverse ++ acc) := by
  induction xs with
  | nil => intro acc _; rfl
  | cons c cs ih =>
      intro acc hgood
      have hc := hgood c (List.mem_cons_self _ _)
      have h1 : c ∉ opChars := goodChar_not_op hc
      have h2 : c.isWhitespace = false := goodChar_not_ws hc
      simp only [tokenizeAux, if_neg h1, h2, Bool.false_eq_true, if_false]
      rw [ih (c :: acc) (fun d hd => hgood d (List.mem_cons_of_mem _ hd))]
      simp

theorem tokenizeAux_delim_cons {c : Char} (hc : c ∈ opChars) (ys : List Char)
    (acc : List Char) :
    tokenizeAux (c :: ys) acc = flushAcc acc ++ String.mk [c] :: tokenizeAux ys [] := by
  simp [tokenizeAux, hc]

theorem tokenizeAux_ws_cons {c : Char} (hc : c.isWhitespace = true)
    (hop : c ∉ opChars) (ys : List Char) (acc : List Char) :
    tokenizeAux (c :: ys) acc = flushAcc acc ++ tokenizeAux ys [] := by
  simp [tokenizeAux, hc, hop]

theorem tokenizeAux_append_delim {c : Char} (hc : c ∈ opChars) :
    ∀ (xs : List Char) (acc : List Char),
      tokenizeAux (xs ++ [c]) acc = tokenizeAux xs acc ++ [String.mk [c]] := by
  intro xs
  induction xs with
  | nil =>
      intro acc
      rw [List.nil_append, tokenizeAux_delim_cons hc]
      simp [tokenizeAux, flushAcc]
  | cons x xs ih =>
      intro acc
      by_cases hx : x ∈ opChars
      · rw [List.cons_append, tokenizeAux_delim_cons hx, tokenizeAux_delim_cons hx, ih]
        simp
      · by_cases hw : x.isWhitespace
        · rw [List.cons_append, tokenizeAux_ws_cons hw hx, tokenizeAux_ws_cons hw hx, ih]
          simp
        · simp only [List.cons_append, tokenizeAux, if_neg hx, hw, Bool.false_eq_true,
            if_false]
          exact ih (x :: acc)

theorem tokenizeAux_split {c : Char} (hc : c ∈ opChars ∨ c.isWhitespace = true) :
    ∀ (xs ys : List Char) (acc : List Char),
      tokenizeAux (xs ++ c :: ys) acc = tokenizeAux (xs ++ [c]) acc ++ tokenizeAux ys [] := by
  intro xs
  induction xs with
  | nil =>
      intro ys acc
      rcases hc with hop | hws
      · rw [List.nil_append, List.nil_append, tokenizeAux_delim_cons hop,
          tokenizeAux_delim_cons hop]
        simp [tokenizeAux, flushAcc]
      · have hop : c ∉ opChars := by
          intro hmem
          have := @goodChar_not_ws c
          simp only [opChars, List.mem_cons, List.not_mem_nil, or_false] at hmem
          rcases hmem with rfl | rfl | rfl | rfl | rfl | rfl | rfl <;> simp_all
        rw [List.nil_append, List.nil_append, tokenizeAux_ws_cons hws hop,
          tokenizeAux_ws_cons hws hop]
        simp [tokenizeAux, flushAcc]
  | cons x xs ih =>
      intro ys acc
      by_cases hx : x ∈ opChars
      · rw [List.cons_append, tokenizeAux_delim_cons hx, List.cons_append,
          tokenizeAux_delim_cons hx, ih]
        simp
      · by_cases hw : x.isWhitespace
        · rw [List.cons_append, tokenizeAux_ws_cons hw hx, List.cons_append,
          tokenizeAux_ws_cons hw hx, ih]
          simp
        · simp only [List.cons_append, tokenizeAux, if_neg hx, hw, Bool.false_eq_true,
            if_false]
          exact ih ys (x :: acc)

theorem tokenizeAux_append_ws {c : Char} (hws : c.isWhitespace = true)
    (hop : c ∉ opChars) :
    ∀ (xs : List Char) (acc : List Char),
      tokenizeAux (xs ++ [c]) acc = tokenizeAux xs acc := by
  intro xs
  induction xs with
  | nil =>
      intro acc
      rw [List.nil_append, tokenizeAux_ws_cons hws hop]
      simp [tokenizeAux, flushAcc]
  | cons x xs ih =>
      intro acc
      by_cases hx : x ∈ opChars
      · rw [List.cons_append, tokenizeAux_delim_cons hx, tokenizeAux_delim_cons hx, ih]
      · by_cases hw : x.isWhitespace
        · rw [List.cons_append, tokenizeAux_ws_cons hw hx, tokenizeAux_ws_cons hw hx, ih]
        · simp only [List.cons_append, tokenizeAux, if_neg hx, hw, Bool.false_eq_true,
            if_false]
          exact ih (x :: acc)

/-- The token sequence of a printed formula: every binary child is wrapped
in parentheses by `__repr__`, so each binary node contributes exactly one
operator token between its (possibly parenthesized) children. -/
def tokRepr : Formula → List String
  | .Literal n => [n]
  | .Not x =>
      "¬" :: (if x.isBinaryOp then "(" :: tokRepr x ++ [")"] else tokRepr x)
  | .And l r =>
      (if l.isBinaryOp then "(" :: tokRepr l ++ [")"] else tokRepr l) ++
        "∧" :: (if r.isBinaryOp then "(" :: tokRepr r ++ [")"] else tokRepr r)
  | .Or l r =>
      (if l.isBinaryOp then "(" :: tokRepr l ++ [")"] else tokRepr l) ++
        "∨" :: (if r.isBinaryOp then "(" :: tokRepr r ++ [")"] else tokRepr r)
  | .Implies l r =>
      (if l.isBinaryOp then "(" :: tokRepr l ++ [")"] else tokRepr l) ++
        "→" :: (if r.isBinaryOp then "(" :: tokRepr r ++ [")"] else tokRepr r)
  | .Iff l r =>
      (if l.isBinaryOp then "(" :: tokRepr l ++ [")"] else tokRepr l) ++
        "↔" :: (if r.isBinaryOp then "(" :: tokRepr r ++ [")"] else tokRepr r)

/-- The parenthesization `__repr__` applies to binary operands, at the
token level. -/
def tokWrap (f : Formula) : List String :=
  if f.isBinaryOp then "(" :: tokRepr f ++ [")"] else tokRepr f

theorem tokenize_wrap_of {f : Formula}
    (hf : tokenizeAux (reprFormula f).data [] = tokRepr f) :
    tokenizeAux (wrapRepr (reprFormula f) f.isBinaryOp).data [] = tokWrap f := by
  by_cases hb : f.isBinaryOp
  · simp only [wrapRepr, hb, if_true, tokWrap]
    rw [show ("(" ++ reprFormula f ++ ")").data
        = '(' :: ((reprFormula f).data ++ [')']) from by
      simp [String.data_append]]
    rw [tokenizeAux_delim_cons (by decide) _ []]
    rw [tokenizeAux_append_delim (by decide), hf]
    simp [flushAcc]
  · simp only [wrapRepr, hb, Bool.false_eq_true, if_false, tokWrap, hf]

theorem tokenize_binrepr {l r : Formula} (op : Char) (m : String)
    (hop : op ∈ opChars) (hm : m.data = [' ', op, ' '])
    (hl : tokenizeAux (wrapRepr (reprFormula l) l.isBinaryOp).data [] = tokWrap l)
    (hr : tokenizeAux (wrapRepr (reprFormula r) r.isBinaryOp).data [] = tokWrap r) :
    tokenizeAux (wrapRepr (reprFormula l) l.isBinaryOp ++ m ++
        wrapRepr (reprFormula r) r.isBinaryOp).data []
      = tokWrap l ++ String.mk [op] :: tokWrap r := by
  have hsp : (' ' : Char) ∉ opChars := by decide
  have hws : (' ' : Char).isWhitespace = true := by decide
  rw [String.data_append, String.data_append, hm, List.append_assoc]
  rw [show ([' ', op, ' '] ++ (wrapRepr (reprFormula r) r.isBinaryOp).data
      = ' ' :: (op :: ' ' :: (wrapRepr (reprFormula r) r.isBinaryOp).data)) from rfl]
  rw [tokenizeAux_split (Or.inr hws), tokenizeAux_append_ws hws hsp, hl]
  rw [tokenizeAux_delim_cons hop, tokenizeAux_ws_cons hws hsp]
  simp [flushAcc, hr]

theorem tokenize_repr (f : Formula) (hv : validNamesF f = true) :
    tokenizeAux (reprFormula f).data [] = tokRepr f := by
  induction f with
  | Literal n =>
      obtain ⟨hne, hgood⟩ := validLiteralName_chars (by simpa [validNamesF] using hv)
      rw [reprFormula, tokRepr, tokenizeAux_good _ [] hgood]
      simp [flushAcc, hne]
  | Not x ih =>
      have hx : validNamesF x = true := by simpa [validNamesF] using hv
      have ihx := ih hx
      by_cases hb : x.isBinaryOp
      · simp only [reprFormula, hb, if_true, tokRepr]
        rw [show ("¬(" ++ reprFormula x ++ ")").data
            = '¬' :: '(' :: ((reprFormula x).data ++ [')']) from by
          simp [String.data_append]]
        rw [tokenizeAux_delim_cons (by decide) _ [],
          tokenizeAux_delim_cons (by decide) _ [],
          tokenizeAux_append_delim (by decide), ihx]
        simp [flushAcc]
      · simp only [reprFormula, hb, Bool.false_eq_true, if_false, tokRepr]
        rw [show ("¬" ++ reprFormula x).data = '¬' :: (reprFormula x).data from by
          simp [String.data_append]]
        rw [tokenizeAux_delim_cons (by decide) _ [], ihx]
        simp [flushAcc]
  | And l r ihl ihr =>
      have hlr : validNamesF l = true ∧ validNamesF r = true := by
        simpa [validNamesF, Bool.and_eq_true] using hv
      rw [reprFormula, tokenize_binrepr '∧' " ∧ " (by decide) rfl
        (tokenize_wrap_of (ihl hlr.1)) (tokenize_wrap_of (ihr hlr.2))]
      rfl
  | Or l r ihl ihr =>
      have hlr : validNamesF l = true ∧ validNamesF r = true := by
        simpa [validNamesF, Bool.and_eq_true] using hv
      rw [reprFormula, tokenize_binrepr '∨' " ∨ " (by decide) rfl
        (tokenize_wrap_of (ihl hlr.1)) (tokenize_wrap_of (ihr hlr.2))]
      rfl
  | Implies l r ihl ihr =>
      have hlr : validNamesF l = true ∧ validNamesF r = true := by
        simpa [validNamesF, Bool.and_eq_true] using hv
      rw [reprFormula, tokenize_binrepr '→' " → " (by decide) rfl
        (tokenize_wrap_of (ihl hlr.1)) (tokenize_wrap_of (ihr hlr.2))]
      rfl
  | Iff l r ihl ihr =>
      have hlr : validNamesF l = true ∧ validNamesF r = true := by
        simpa [validNamesF, Bool.and_eq_true] using hv
      rw [reprFormula, tokenize_binrepr '↔' " ↔ " (by decide) rfl
        (tokenize_wrap_of (ihl hlr.1)) (tokenize_wrap_of (ihr hlr.2))]
      rfl

/-- A continuation after a printed formula never begins with a binary
operator token, so every precedence loop stops on it.  In the round trip
the continuation is `[]` or starts with `")"`. -/
def stopAll (ts : List String) : Prop :=
  ts.head? ≠ some "↔" ∧ ts.head? ≠ some "→" ∧ ts.head? ≠ some "∨" ∧ ts.head? ≠ some "∧"

theorem validLiteralName_special {t : String} (hv : validLiteralName t = true) :
    t ≠ "¬" ∧ t ≠ "(" ∧ t ∉ factorBadTokens := by
  refine ⟨?_, ?_, ?_⟩
  · rintro rfl; exact absurd hv (by decide)
  · rintro rfl; exact absurd hv (by decide)
  · intro hmem
    simp only [factorBadTokens, List.mem_cons, List.not_mem_nil, or_false] at hmem
    rcases hmem with rfl | rfl | rfl | rfl | rfl <;> exact absurd hv (by decide)

theorem parseNot_literal {t : String} (hv : validLiteralName t = true)
    (n : Nat) (rest : List String) :
    parseNot (n + 2) (t :: rest) = some (.Literal t, rest) := by
  obtain ⟨h1, h2, h3⟩ := validLiteralName_special hv
  rw [parseNot]
  case x_3 => intro r hX; injection hX with ht _; exact h1 ht
  rw [parseFactor]
  case x_2 => intro ht; exact h2 ht
  rw [if_neg h3, if_pos hv]

theorem parseAndLoop_stop (n : Nat) (l : Formula) (ts : List String)
    (h : ts.head? ≠ some "∧") : parseAndLoop (n + 1) l ts = some (l, ts) := by
  rw [parseAndLoop]
  intro r hX
  exact h (by rw [hX]; rfl)

theorem parseOrLoop_stop (n : Nat) (l : Formula) (ts : List String)
    (h : ts.head? ≠ some "∨") : parseOrLoop (n + 1) l ts = some (l, ts) := by
  rw [parseOrLoop]
  intro r hX
  exact h (by rw [hX]; rfl)

theorem parseImpliesLoop_stop (n : Nat) (l : Formula) (ts : List String)
    (h : ts.head? ≠ some "→") : parseImpliesLoop (n + 1) l ts = some (l, ts) := by
  rw [parseImpliesLoop]
  intro r hX
  exact h (by rw [hX]; rfl)

theorem parseIffLoop_stop (n : Nat) (l : Formula) (ts : List String)
    (h : ts.head? ≠ some "↔") : parseIffLoop (n + 1) l ts = some (l, ts) := by
  rw [parseIffLoop]
  intro r hX
  exact h (by rw [hX]; rfl)

theorem chainAnd {g : Formula} {W : Nat}
    (hN : ∀ n rest, W ≤ n → parseNot n (tokWrap g ++ rest) = some (g, rest)) :
    ∀ n ts, W + 2 ≤ n → ts.head? ≠ some "∧" →
      parseAnd n (tokWrap g ++ ts) = some (g, ts) := by
  intro n ts hn hstop
  obtain ⟨m, rfl⟩ : ∃ m, n = m + 2 := ⟨n - 2, by omega⟩
  rw [parseAnd, hN (m + 1) ts (by omega)]
  simp only [Option.pure_def, Option.bind_eq_bind, Option.some_bind]
  exact parseAndLoop_stop m g ts hstop

theorem chainOr {g : Formula} {W : Nat}
    (hN : ∀ n rest, W ≤ n → parseNot n (tokWrap g ++ rest) = some (g, rest)) :
    ∀ n ts, W + 3 ≤ n → ts.head? ≠ some "∨" → ts.head? ≠ some "∧" →
      parseOr n (tokWrap g ++ ts) = some (g, ts) := by
  intro n ts hn h1 h2
  obtain ⟨m, rfl⟩ : ∃ m, n = m + 2 := ⟨n - 2, by omega⟩
  rw [parseOr, chainAnd hN (m + 1) ts (by omega) h2]
  simp only [Option.pure_def, Option.bind_eq_bind, Option.some_bind]
  exact parseOrLoop_stop m g ts h1

theorem chainImplies {g : Formula} {W : Nat}
    (hN : ∀ n rest, W ≤ n → parseNot n (tokWrap g ++ rest) = some (g, rest)) :
    ∀ n ts, W + 4 ≤ n →
      ts.head? ≠ some "→" → ts.head? ≠ some "∨" → ts.head? ≠ some "∧" →
      parseImplies n (tokWrap g ++ ts) = some (g, ts) := by
  intro n ts hn h1 h2 h3
  obtain ⟨m, rfl⟩ : ∃ m, n = m + 2 := ⟨n - 2, by omega⟩
  rw [parseImplies, chainOr hN (m + 1) ts (by omega) h2 h3]
  simp only [Option.pure_def, Option.bind_eq_bind, Option.some_bind]
  exact parseImpliesLoop_stop m g ts h1

theorem chainIff {g : Formula} {W : Nat}
    (hN : ∀ n rest, W ≤ n → parseNot n (tokWrap g ++ rest) = some (g, rest)) :
    ∀ n ts, W + 5 ≤ n → stopAll ts →
      parseIff n (tokWrap g ++ ts) = some (g, ts) := by
  intro n ts hn hstop
  obtain ⟨m, rfl⟩ : ∃ m, n = m + 2 := ⟨n - 2, by omega⟩
  rw [parseIff, chainImplies hN (m + 1) ts (by omega) hstop.2.1 hstop.2.2.1 hstop.2.2.2]
  simp only [Option.pure_def, Option.bind_eq_bind, Option.some_bind]
  exact parseIffLoop_stop m g ts hstop.1

theorem parseAnd_node {l r : Formula} {Wl Wr : Nat}
    (hNl : ∀ n rest, Wl ≤ n → parseNot n (tokWrap l ++ rest) = some (l, rest))
    (hNr : ∀ n rest, Wr ≤ n → parseNot n (tokWrap r ++ rest) = some (r, rest)) :
    ∀ n ts, Wl + Wr + 4 ≤ n → ts.head? ≠ some "∧" →
      parseAnd n (tokWrap l ++ ("∧" :: tokWrap r) ++ ts) = some (.And l r, ts) := by
  intro n ts hn hstop
  obtain ⟨m, rfl⟩ : ∃ m, n = m + 3 := ⟨n - 3, by omega⟩
  rw [List.append_assoc, List.cons_append, parseAnd, hNl (m + 2) _ (by omega)]
  simp only [Option.pure_def, Option.bind_eq_bind, Option.some_bind]
  rw [parseAndLoop, hNr (m + 1) ts (by omega)]
  simp only [Option.pure_def, Option.bind_eq_bind, Option.some_bind]
  exact parseAndLoop_stop m (.And l r) ts hstop

theorem parseIff_and {l r : Formula} {Wl Wr : Nat}
    (hNl : ∀ n rest, Wl ≤ n → parseNot n (tokWrap l ++ rest) = some (l, rest))
    (hNr : ∀ n rest, Wr ≤ n → parseNot n (tokWrap r ++ rest) = some (r, rest)) :
    ∀ n ts, Wl + Wr + 7 ≤ n → stopAll ts →
      parseIff n (tokWrap l ++ ("∧" :: tokWrap r) ++ ts) = some (.And l r, ts) := by
  intro n ts hn hstop
  obtain ⟨m, rfl⟩ : ∃ m, n = m + 4 := ⟨n - 4, by omega⟩
  rw [parseIff, parseImplies, parseOr,
    parseAnd_node hNl hNr (m + 1) ts (by omega) hstop.2.2.2]
  simp only [Option.pure_def, Option.bind_eq_bind, Option.some_bind]
  rw [parseOrLoop_stop m (.And l r) ts hstop.2.2.1]
  simp only [Option.pure_def, Option.bind_eq_bind, Option.some_bind]
  rw [parseImpliesLoop_stop (m + 1) (.And l r) ts hstop.2.1]
  simp only [Option.pure_def, Option.bind_eq_bind, Option.some_bind]
  exact parseIffLoop_stop (m + 2) (.And l r) ts hstop.1

theorem parseOr_node {l r : Formula} {Wl Wr : Nat}
    (hNl : ∀ n rest, Wl ≤ n → parseNot n (tokWrap l ++ rest) = some (l, rest))
    (hNr : ∀ n rest, Wr ≤ n → parseNot n (tokWrap r ++ rest) = some (r, rest)) :
    ∀ n ts, Wl + Wr + 4 ≤ n → ts.head? ≠ some "∨" → ts.head? ≠ some "∧" →
      parseOr n (tokWrap l ++ ("∨" :: tokWrap r) ++ ts) = some (.Or l r, ts) := by
  intro n ts hn h1 h2
  obtain ⟨m, rfl⟩ : ∃ m, n = m + 3 := ⟨n - 3, by omega⟩
  rw [List.append_assoc, List.cons_append, parseOr, chainAnd hNl (m + 2) _ (by omega) (by simp)]
  simp only [Option.pure_def, Option.bind_eq_bind, Option.some_bind]
  rw [parseOrLoop, chainAnd hNr (m + 1) ts (by omega) h2]
  simp only [Option.pure_def, Option.bind_eq_bind, Option.some_bind]
  exact parseOrLoop_stop m (.Or l r) ts h1

theorem parseIff_or {l r : Formula} {Wl Wr : Nat}
    (hNl : ∀ n rest, Wl ≤ n → parseNot n (tokWrap l ++ rest) = some (l, rest))
    (hNr : ∀ n rest, Wr ≤ n → parseNot n (tokWrap r ++ rest) = some (r, rest)) :
    ∀ n ts, Wl + Wr + 7 ≤ n → stopAll ts →
      parseIff n (tokWrap l ++ ("∨" :: tokWrap r) ++ ts) = some (.Or l r, ts) := by
  intro n ts hn hstop
  obtain ⟨m, rfl⟩ : ∃ m, n = m + 3 := ⟨n - 3, by omega⟩
  rw [parseIff, parseImplies,
    parseOr_node hNl hNr (m + 1) ts (by omega) hstop.2.2.1 hstop.2.2.2]
  simp only [Option.pure_def, Option.bind_eq_bind, Option.some_bind]
  rw [parseImpliesLoop_stop m (.Or l r) ts hstop.2.1]
  simp only [Option.pure_def, Option.bind_eq_bind, Option.some_bind]
  exact parseIffLoop_stop (m + 1) (.Or l r) ts hstop.1

theorem parseImplies_node {l r : Formula} {Wl Wr : Nat}
    (hNl : ∀ n rest, Wl ≤ n → parseNot n (tokWrap l ++ rest) = some (l, rest))
    (hNr : ∀ n rest, Wr ≤ n → parseNot n (tokWrap r ++ rest) = some (r, rest)) :
    ∀ n ts, Wl + Wr + 5 ≤ n →
      ts.head? ≠ some "→" → ts.head? ≠ some "∨" → ts.head? ≠ some "∧" →
      parseImplies n (tokWrap l ++ ("→" :: tokWrap r) ++ ts) = some (.Implies l r, ts) := by
  intro n ts hn h1 h2 h3
  obtain ⟨m, rfl⟩ : ∃ m, n = m + 3 := ⟨n - 3, by omega⟩
  rw [List.append_assoc, List.cons_append, parseImplies,
    chainOr hNl (m + 2) _ (by omega) (by simp) (by simp)]
  simp only [Option.pure_def, Option.bind_eq_bind, Option.some_bind]
  rw [parseImpliesLoop, chainOr hNr (m + 1) ts (by omega) h2 h3]
  simp only [Option.pure_def, Option.bind_eq_bind, Option.some_bind]
  exact parseImpliesLoop_stop m (.Implies l r) ts h1

theorem parseIff_implies {l r : Formula} {Wl Wr : Nat}
    (hNl : ∀ n rest, Wl ≤ n → parseNot n (tokWrap l ++ rest) = some (l, rest))
    (hNr : ∀ n rest, Wr ≤ n → parseNot n (tokWrap r ++ rest) = some (r, rest)) :
    ∀ n ts, Wl + Wr + 6 ≤ n → stopAll ts →
      parseIff n (tokWrap l ++ ("→" :: tokWrap r) ++ ts) = some (.Implies l r, ts) := by
  intro n ts hn hstop
  obtain ⟨m, rfl⟩ : ∃ m, n = m + 2 := ⟨n - 2, by omega⟩
  rw [parseIff,
    parseImplies_node hNl hNr (m + 1) ts (by omega) hstop.2.1 hstop.2.2.1 hstop.2.2.2]
  simp only [Option.pure_def, Option.bind_eq_bind, Option.some_bind]
  exact parseIffLoop_stop m (.Implies l r) ts hstop.1

theorem parseIff_iff {l r : Formula} {Wl Wr : Nat}
    (hNl : ∀ n rest, Wl ≤ n → parseNot n (tokWrap l ++ rest) = some (l, rest))
    (hNr : ∀ n rest, Wr ≤ n → parseNot n (tokWrap r ++ rest) = some (r, rest)) :
    ∀ n ts, Wl + Wr + 6 ≤ n → stopAll ts →
      parseIff n (tokWrap l ++ ("↔" :: tokWrap r) ++ ts) = some (.Iff l r, ts) := by
  intro n ts hn hstop
  obtain ⟨m, rfl⟩ : ∃ m, n = m + 3 := ⟨n - 3, by omega⟩
  rw [List.append_assoc, List.cons_append, parseIff,
    chainImplies hNl (m + 2) _ (by omega) (by simp) (by simp) (by simp)]
  simp only [Option.pure_def, Option.bind_eq_bind, Option.some_bind]
  rw [parseIffLoop, chainImplies hNr (m + 1) ts (by omega)
    hstop.2.1 hstop.2.2.1 hstop.2.2.2]
  simp only [Option.pure_def, Option.bind_eq_bind, Option.some_bind]
  exact parseIffLoop_stop m (.Iff l r) ts hstop.1

theorem tokWrap_literal (t : String) : tokWrap (.Literal t) = [t] := rfl

theorem tokWrap_not (x : Formula) : tokWrap (.Not x) = "¬" :: tokWrap x := rfl

theorem stopAll_rparen (rest : List String) : stopAll (")" :: rest) := by
  refine ⟨?_, ?_, ?_, ?_⟩ <;> simp

theorem parseNot_wrap {f : Formula} (hb : f.isBinaryOp = true)
    (hT : ∀ n rest, 12 * sizeF f ≤ n → stopAll rest →
        parseIff n (tokRepr f ++ rest) = some (f, rest)) :
    ∀ n rest, 12 * sizeF f + 2 ≤ n →
      parseNot n (tokWrap f ++ rest) = some (f, rest) := by
  intro n rest hn
  obtain ⟨m, rfl⟩ : ∃ m, n = m + 2 := ⟨n - 2, by omega⟩
  have hwrap : tokWrap f = "(" :: (tokRepr f ++ [")"]) := by
    simp [tokWrap, hb]
  rw [hwrap, List.cons_append, List.append_assoc, List.singleton_append]
  rw [parseNot]
  case x_3 => intro r hX; injection hX with h1 _; exact absurd h1 (by decide)
  rw [parseFactor, hT m (")" :: rest) (by omega) (stopAll_rparen rest)]
  simp only [Option.pure_def, Option.bind_eq_bind, Option.some_bind]

theorem parse_tokRepr (f : Formula) (hv : validNamesF f = true) :
    (∀ n rest, 12 * sizeF f ≤ n → stopAll rest →
        parseIff n (tokRepr f ++ rest) = some (f, rest)) ∧
    (∀ n rest, 12 * sizeF f + 2 ≤ n →
        parseNot n (tokWrap f ++ rest) = some (f, rest)) := by
  induction f with
  | Literal t =>
      have hvt : validLiteralName t = true := by simpa [validNamesF] using hv
      have hN : ∀ n rest, 2 ≤ n →
          parseNot n (tokWrap (.Literal t) ++ rest) = some (.Literal t, rest) := by
        intro n rest hn
        obtain ⟨m, rfl⟩ : ∃ m, n = m + 2 := ⟨n - 2, by omega⟩
        rw [tokWrap_literal, List.singleton_append]
        exact parseNot_literal hvt m rest
      constructor
      · intro n rest hn hstop
        rw [show tokRepr (.Literal t) = tokWrap (.Literal t) from rfl]
        refine chainIff hN n rest ?_ hstop
        simp only [sizeF] at hn; omega
      · intro n rest hn
        exact hN n rest (by omega)
  | Not x ih =>
      have hvx : validNamesF x = true := by simpa [validNamesF] using hv
      obtain ⟨-, ihN⟩ := ih hvx
      have hN : ∀ n rest, 12 * sizeF x + 3 ≤ n →
          parseNot n (tokWrap (.Not x) ++ rest) = some (.Not x, rest) := by
        intro n rest hn
        obtain ⟨m, rfl⟩ : ∃ m, n = m + 1 := ⟨n - 1, by omega⟩
        rw [tokWrap_not, List.cons_append, parseNot, ihN m rest (by omega)]
        simp only [Option.pure_def, Option.bind_eq_bind, Option.some_bind]
      constructor
      · intro n rest hn hstop
        rw [show tokRepr (.Not x) = tokWrap (.Not x) from rfl]
        refine chainIff hN n rest ?_ hstop
        simp only [sizeF] at hn; omega
      · intro n rest hn
        refine hN n rest ?_
        simp only [sizeF] at hn; omega
  | And l r ihl ihr =>
      have hvlr : validNamesF l = true ∧ validNamesF r = true := by
        simpa [validNamesF, Bool.and_eq_true] using hv
      obtain ⟨-, ihNl⟩ := ihl hvlr.1
      obtain ⟨-, ihNr⟩ := ihr hvlr.2
      have hT : ∀ n rest, 12 * sizeF (.And l r) ≤ n → stopAll rest →
          parseIff n (tokRepr (.And l r) ++ rest) = some (.And l r, rest) := by
        intro n rest hn hstop
        rw [show tokRepr (.And l r) = tokWrap l ++ ("∧" :: tokWrap r) from rfl]
        refine parseIff_and ihNl ihNr n rest ?_ hstop
        simp only [sizeF] at hn; omega
      exact ⟨hT, parseNot_wrap rfl hT⟩
  | Or l r ihl ihr =>
      have hvlr : validNamesF l = true ∧ validNamesF r = true := by
        simpa [validNamesF, Bool.and_eq_true] using hv
      obtain ⟨-, ihNl⟩ := ihl hvlr.1
      obtain ⟨-, ihNr⟩ := ihr hvlr.2
      have hT : ∀ n rest, 12 * sizeF (.Or l r) ≤ n → stopAll rest →
          parseIff n (tokRepr (.Or l r) ++ rest) = some (.Or l r, rest) := by
        intro n rest hn hstop
        rw [show tokRepr (.Or l r) = tokWrap l ++ ("∨" :: tokWrap r) from rfl]
        refine parseIff_or ihNl ihNr n rest ?_ hstop
        simp only [sizeF] at hn; omega
      exact ⟨hT, parseNot_wrap rfl hT⟩
  | Implies l r ihl ihr =>
      have hvlr : validNamesF l = true ∧ validNamesF r = true := by
        simpa [validNamesF, Bool.and_eq_true] using hv
      obtain ⟨-, ihNl⟩ := ihl hvlr.1
      obtain ⟨-, ihNr⟩ := ihr hvlr.2
      have hT : ∀ n rest, 12 * sizeF (.Implies l r) ≤ n → stopAll rest →
          parseIff n (tokRepr (.Implies l r) ++ rest) = some (.Implies l r, rest) := by
        intro n rest hn hstop
        rw [show tokRepr (.Implies l r) = tokWrap l ++ ("→" :: tokWrap r) from rfl]
        refine parseIff_implies ihNl ihNr n rest ?_ hstop
        simp only [sizeF] at hn; omega
      exact ⟨hT, parseNot_wrap rfl hT⟩
  | Iff l r ihl ihr =>
      have hvlr : validNamesF l = true ∧ validNamesF r = true := by
        simpa [validNamesF, Bool.and_eq_true] using hv
      obtain ⟨-, ihNl⟩ := ihl hvlr.1
      obtain ⟨-, ihNr⟩ := ihr hvlr.2
      have hT : ∀ n rest, 12 * sizeF (.Iff l r) ≤ n → stopAll rest →
          parseIff n (tokRepr (.Iff l r) ++ rest) = some (.Iff l r, rest) := by
        intro n rest hn hstop
        rw [show tokRepr (.Iff l r) = tokWrap l ++ ("↔" :: tokWrap r) from rfl]
        refine parseIff_iff ihNl ihNr n rest ?_ hstop
        simp only [sizeF] at hn; omega
      exact ⟨hT, parseNot_wrap rfl hT⟩

theorem tokRepr_ne_nil (f : Formula) : tokRepr f ≠ [] := by
  cases f with
  | Literal t => simp [tokRepr]
  | Not x => simp [tokRepr]
  | And l r | Or l r | Implies l r | Iff l r =>
      intro h
      rw [tokRepr, List.append_eq_nil] at h
      exact absurd h.2 (by simp)

theorem tokRepr_length_le_tokWrap (f : Formula) :
    (tokRepr f).length ≤ (tokWrap f).length := by
  by_cases hb : f.isBinaryOp
  · simp [tokWrap, hb]; omega
  · simp [tokWrap, hb]

theorem sizeF_le_tokRepr_length (f : Formula) : sizeF f ≤ (tokRepr f).length := by
  induction f with
  | Literal t => simp [sizeF, tokRepr]
  | Not x ih =>
      have := tokRepr_length_le_tokWrap x
      simp only [sizeF, tokRepr]
      by_cases hb : x.isBinaryOp <;> simp [hb] <;> omega
  | And l r ihl ihr | Or l r ihl ihr | Implies l r ihl ihr | Iff l r ihl ihr =>
      have hl := tokRepr_length_le_tokWrap l
      have hr := tokRepr_length_le_tokWrap r
      simp only [sizeF, tokRepr, tokWrap] at *
      by_cases hbl : l.isBinaryOp <;> by_cases hbr : r.isBinaryOp <;>
        simp [hbl, hbr] at * <;> omega

/-- C8: for every Formula AST whose literal names all pass the
`Literal` constructor's validity check, parsing the printed canonical form
(`__repr__`) succeeds and returns a structurally equal AST. -/
theorem C8_parse_repr_roundtrip (f : Formula) (hv : validNamesF f = true) :
    parseFormula (reprFormula f) = some f := by
  have htok : tokenize (reprFormula f) = tokRepr f := tokenize_repr f hv
  have hmain := (parse_tokRepr f hv).1 (parseFuel (tokRepr f)) []
    (by have := sizeF_le_tokRepr_length f; simp only [parseFuel]; omega)
    (by refine ⟨?_, ?_, ?_, ?_⟩ <;> simp)
  rw [List.append_nil] at hmain
  rw [parseFormula]
  rw [show tokenize (reprFormula f) = tokRepr f from htok]
  cases h : tokRepr f with
  | nil => exact absurd h (tokRepr_ne_nil f)
  | cons a as =>
      rw [← h]
      rw [show (tokRepr f).isEmpty = false from by rw [h]; rfl]
      simp only [Bool.false_eq_true, if_false]
      rw [hmain]

theorem C8_parse_repr_roundtrip_witness :
    validNamesF (.Implies (.Literal "p") (.Literal "q")) = true ∧
    parseFormula (reprFormula (.Implies (.Literal "p") (.Literal "q")))
      = some (.Implies (.Literal "p") (.Literal "q")) :=
  ⟨by decide, C8_parse_repr_roundtrip (.Implies (.Literal "p") (.Literal "q")) (by decide)⟩

/-! ### Semantics of clause sets and correctness of the resolution engine
(claim C6)

The spec's reference semantics: a valuation assigns a truth value to every
atom; a literal string is an atom or `¬` followed by an atom; a clause is
satisfied when some literal evaluates to true. -/

namespace ResolutionChecker

/-- The atom named by a literal string: strip one leading `¬` if present. -/
def atomOf (l : String) : String := if isNegLit l then litTail l else l

/-- A well-formed signed literal: its atom is nonempty and contains no `¬`
(so the literal is `a` or `¬a` for an atom `a`, exactly the strings the CNF
pipeline emits). -/
def wfLit (l : String) : Bool :=
  decide ((atomOf l).data ≠ []) && decide ('¬' ∉ (atomOf l).data)

/-- Truth-table evaluation of a literal under a valuation of the atoms. -/
def evalLit (v : String → Bool) (l : String) : Bool :=
  if isNegLit l then ! v (litTail l) else v l

/-- A valuation satisfies a clause set when every clause has a true literal. -/
def satisfies (v : String → Bool) (S : Finset (Finset String)) : Prop :=
  ∀ C ∈ S, ∃ l ∈ C, evalLit v l = true

/-- Brute-force satisfiability of a clause set. -/
def satisfiable (S : Finset (Finset String)) : Prop := ∃ v, satisfies v S

theorem data_neg (s : String) : ("¬" ++ s).data = '¬' :: s.data := by
  rw [String.data_append]; rfl

theorem isNegLit_neg (s : String) : isNegLit ("¬" ++ s) = true := by
  simp [isNegLit, data_neg]

theorem litTail_neg (s : String) : litTail ("¬" ++ s) = s := by
  simp only [litTail, data_neg, List.tail_cons]

theorem eq_neg_of_isNegLit {l : String} (h : isNegLit l = true) :
    l = "¬" ++ litTail l := by
  apply String.ext
  rw [data_neg]
  simp only [isNegLit, decide_eq_true_eq] at h
  cases hd : l.data with
  | nil => rw [hd] at h; simp at h
  | cons c cs =>
      rw [hd] at h
      simp only [List.head?_cons, Option.some.injEq] at h
      simp [litTail, hd, h]

theorem wfLit_iff {l : String} :
    wfLit l = true ↔ (atomOf l).data ≠ [] ∧ '¬' ∉ (atomOf l).data := by
  simp [wfLit]

theorem isNegLit_eq_false_of {s : String} (h1 : s.data ≠ [])
    (h2 : '¬' ∉ s.data) : isNegLit s = false := by
  cases hd : s.data with
  | nil => exact absurd hd h1
  | cons c cs =>
      simp only [isNegLit, hd, List.head?_cons, decide_eq_false_iff_not,
        Option.some.injEq]
      intro hc
      exact h2 (by rw [hd, hc]; exact List.mem_cons_self _ _)

theorem isNegLit_atomOf {l : String} (h : wfLit l = true) :
    isNegLit (atomOf l) = false := by
  obtain ⟨h1, h2⟩ := wfLit_iff.mp h
  exact isNegLit_eq_false_of h1 h2

theorem atomOf_pos {l : String} (h : isNegLit l = false) : atomOf l = l := by
  simp [atomOf, h]

theorem atomOf_neg {l : String} (h : isNegLit l = true) : atomOf l = litTail l := by
  simp [atomOf, h]

theorem atomOf_neg_atom (s : String) : atomOf ("¬" ++ s) = s := by
  rw [atomOf_neg (isNegLit_neg s), litTail_neg]

theorem evalLit_atom (v : String → Bool) (l : String) :
    evalLit v l = if isNegLit l then ! v (atomOf l) else v (atomOf l) := by
  cases hn : isNegLit l <;> simp [evalLit, atomOf, hn]

theorem evalLit_congr {v w : String → Bool} {l : String}
    (h : v (atomOf l) = w (atomOf l)) : evalLit v l = evalLit w l := by
  rw [evalLit_atom, evalLit_atom, h]

theorem evalLit_compl {l : String} (h : wfLit l = true) (v : String → Bool) :
    evalLit v (complementary l) = ! evalLit v l := by
  cases hn : isNegLit l
  · rw [show complementary l = "¬" ++ l from by simp [complementary, hn]]
    rw [evalLit, if_pos (isNegLit_neg l), litTail_neg, evalLit, if_neg (by simp [hn])]
  · rw [show complementary l = litTail l from by simp [complementary, hn]]
    have hwa : isNegLit (atomOf l) = false := isNegLit_atomOf h
    rw [atomOf_neg hn] at hwa
    rw [evalLit, if_neg (by simp [hwa]), evalLit, if_pos hn, Bool.not_not]

theorem wfLit_compl {l : String} (h : wfLit l = true) :
    wfLit (complementary l) = true := by
  cases hn : isNegLit l
  · rw [show complementary l = "¬" ++ l from by simp [complementary, hn]]
    rw [wfLit_iff, atomOf_neg_atom]
    have := wfLit_iff.mp h
    rwa [atomOf_pos hn] at this
  · rw [show complementary l = litTail l from by simp [complementary, hn]]
    have h' := wfLit_iff.mp h
    rw [atomOf_neg hn] at h'
    rw [wfLit_iff, atomOf_pos (isNegLit_eq_false_of h'.1 h'.2)]
    exact h'

theorem atomOf_eq_cases {l p : String}
    (h : atomOf l = p) : l = p ∨ l = "¬" ++ p := by
  cases hn : isNegLit l
  · left; rw [← h, atomOf_pos hn]
  · right; rw [← h, atomOf_neg hn]; exact eq_neg_of_isNegLit hn

theorem isTaut_of_mem_compl {C : Finset String} {l : String}
    (hl : l ∈ C) (hc : complementary l ∈ C) : isTautClause C = true := by
  rw [isTautClause_iff]
  refine ⟨l, hl, ?_⟩
  cases hn : isNegLit l
  · right; rwa [show "¬" ++ l = complementary l from by simp [complementary, hn]]
  · left; exact ⟨rfl, by rwa [show litTail l = complementary l from by
      simp [complementary, hn]]⟩

theorem taut_has_true {C : Finset String}
    (hwf : ∀ l ∈ C, wfLit l = true) (ht : isTautClause C = true)
    (v : String → Bool) : ∃ l ∈ C, evalLit v l = true := by
  obtain ⟨lit, hlit, hcase⟩ := (isTautClause_iff C).mp ht
  rcases hcase with ⟨hneg, htl⟩ | hpos
  · have h' := wfLit_iff.mp (hwf lit hlit)
    rw [atomOf_neg hneg] at h'
    have htlpos : isNegLit (litTail lit) = false := isNegLit_eq_false_of h'.1 h'.2
    cases hv : v (litTail lit)
    · exact ⟨lit, hlit, by rw [evalLit, if_pos hneg, hv]; rfl⟩
    · exact ⟨litTail lit, htl, by rw [evalLit, if_neg (by simp [htlpos])]; exact hv⟩
  · have h' := wfLit_iff.mp (hwf _ hpos)
    rw [atomOf_neg_atom] at h'
    have hlitpos : isNegLit lit = false := isNegLit_eq_false_of h'.1 h'.2
    cases hv : v lit
    · exact ⟨"¬" ++ lit, hpos, by
        rw [evalLit, if_pos (isNegLit_neg lit), litTail_neg, hv]; rfl⟩
    · exact ⟨lit, hlit, by rw [evalLit, if_neg (by simp [hlitpos])]; exact hv⟩

theorem resolvent_sat {v : String → Bool} {A B : Finset String}
    (hwfA : ∀ l ∈ A, wfLit l = true)
    (htA : isTautClause A = false) (htB : isTautClause B = false)
    (hsA : ∃ a ∈ A, evalLit v a = true) (hsB : ∃ b ∈ B, evalLit v b = true)
    {l : String} (hlA : l ∈ A) (hlB : complementary l ∈ B) :
    ∃ x ∈ (A ∪ B) \ {l, complementary l}, evalLit v x = true := by
  have hwl : wfLit l = true := hwfA l hlA
  cases hev : evalLit v l
  · obtain ⟨a, ha, hat⟩ := hsA
    have hane : a ≠ l := fun h => by rw [h, hev] at hat; exact absurd hat (by simp)
    have hanc : a ≠ complementary l := by
      intro h
      rw [h] at ha
      exact absurd (isTaut_of_mem_compl hlA ha) (by simp [htA])
    exact ⟨a, by simp [Finset.mem_sdiff, Finset.mem_union, ha, hane, hanc], hat⟩
  · obtain ⟨b, hb, hbt⟩ := hsB
    have hbnc : b ≠ complementary l := by
      intro h
      rw [h, evalLit_compl hwl, hev] at hbt
      exact absurd hbt (by simp)
    have hbne : b ≠ l := by
      intro h
      rw [h] at hb
      exact absurd (isTaut_of_mem_compl hb hlB) (by simp [htB])
    exact ⟨b, by simp [Finset.mem_sdiff, Finset.mem_union, hb, hbne, hbnc], hbt⟩

theorem mem_resolve_iff {A B C : Finset String} :
    C ∈ resolve A B ↔
      (∃ l ∈ A, complementary l ∈ B ∧ C = (A ∪ B) \ {l, complementary l}) ∧
        isTautClause C = false := by
  simp only [resolve, Finset.mem_filter, Finset.mem_image, Finset.mem_filter]
  constructor
  · rintro ⟨⟨l, ⟨hlA, hlB⟩, rfl⟩, ht⟩
    exact ⟨⟨l, hlA, hlB, rfl⟩, by simpa using ht⟩
  · rintro ⟨⟨l, hlA, hlB, rfl⟩, ht⟩
    exact ⟨⟨l, ⟨hlA, hlB⟩, rfl⟩, by simpa using ht⟩

theorem mem_allResolvents_iff {known : Finset (Finset String)} {C : Finset String} :
    C ∈ allResolvents known ↔
      ∃ A ∈ known, ∃ B ∈ known, A ≠ B ∧ C ∈ resolve A B := by
  simp only [allResolvents, Finset.mem_biUnion, Finset.mem_erase]
  constructor
  · rintro ⟨A, hA, B, ⟨hBA, hB⟩, hC⟩
    exact ⟨A, hA, B, hB, fun h => hBA h.symm, hC⟩
  · rintro ⟨A, hA, B, hB, hAB, hC⟩
    exact ⟨A, hA, B, ⟨fun h => hAB h.symm, hB⟩, hC⟩

theorem allResolvents_inv {v : String → Bool} {known : Finset (Finset String)}
    (hinv : ∀ C ∈ known, (∀ l ∈ C, wfLit l = true) ∧ isTautClause C = false ∧
      ∃ l ∈ C, evalLit v l = true) :
    ∀ C ∈ allResolvents known, (∀ l ∈ C, wfLit l = true) ∧ isTautClause C = false ∧
      ∃ l ∈ C, evalLit v l = true := by
  intro C hC
  obtain ⟨A, hA, B, hB, hAB, hCr⟩ := mem_allResolvents_iff.mp hC
  obtain ⟨⟨l, hlA, hlB, rfl⟩, ht⟩ := mem_resolve_iff.mp hCr
  obtain ⟨hwfA, htA, hsA⟩ := hinv A hA
  obtain ⟨hwfB, htB, hsB⟩ := hinv B hB
  refine ⟨?_, ht, resolvent_sat hwfA htA htB hsA hsB hlA hlB⟩
  intro x hx
  rcases Finset.mem_union.mp (Finset.mem_sdiff.mp hx).1 with h | h
  · exact hwfA x h
  · exact hwfB x h

theorem resolutionAux_ne_true (v : String → Bool) :
    ∀ (n : Nat) (known : Finset (Finset String)),
      (∀ C ∈ known, (∀ l ∈ C, wfLit l = true) ∧ isTautClause C = false ∧
        ∃ l ∈ C, evalLit v l = true) →
      resolutionAux n known ≠ some true := by
  intro n
  induction n with
  | zero => intro known _; simp [resolutionAux]
  | succ n ih =>
      intro known hinv
      simp only [resolutionAux]
      by_cases h1 : ∅ ∈ allResolvents known
      · obtain ⟨-, -, l, hl, -⟩ := allResolvents_inv hinv ∅ h1
        exact absurd hl (Finset.not_mem_empty l)
      · rw [if_neg h1]
        by_cases h2 : allResolvents known ⊆ known
        · rw [if_pos h2]; simp
        · rw [if_neg h2]
          refine ih _ ?_
          intro C hC
          rcases Finset.mem_union.mp hC with h | h
          · exact hinv C h
          · exact allResolvents_inv hinv C h

/-- The atoms mentioned by a clause. -/
def clauseAtoms (C : Finset String) : Finset String := C.image atomOf

/-- The atoms mentioned by a clause set. -/
def allAtoms (S : Finset (Finset String)) : Finset String := S.biUnion clauseAtoms

/-- Model existence for saturated sets: a set of well-formed clauses that is
closed under the engine's resolvent construction and does not contain the
empty clause is satisfiable (Davis–Putnam induction on the atom set). -/
theorem saturated_satisfiable :
    ∀ (n : Nat) (S : Finset (Finset String)),
      (allAtoms S).card ≤ n →
      (∀ C ∈ S, ∀ l ∈ C, wfLit l = true) →
      (∅ : Finset String) ∉ S →
      (∀ A ∈ S, ∀ B ∈ S, A ≠ B → resolve A B ⊆ S) →
      ∃ v, ∀ C ∈ S, ∃ l ∈ C, evalLit v l = true := by
  intro n
  induction n with
  | zero =>
      intro S hcard hwf hne _
      refine ⟨fun _ => true, fun C hC => ?_⟩
      exfalso
      have hCne : C ≠ ∅ := fun h => hne (h ▸ hC)
      obtain ⟨l, hl⟩ := Finset.nonempty_iff_ne_empty.mpr hCne
      have hmem : atomOf l ∈ allAtoms S :=
        Finset.mem_biUnion.mpr ⟨C, hC, Finset.mem_image.mpr ⟨l, hl, rfl⟩⟩
      have := Finset.card_pos.mpr ⟨_, hmem⟩
      omega
  | succ n ih =>
      intro S hcard hwf hne hclosed
      by_cases hsmall : (allAtoms S).card ≤ n
      · exact ih S hsmall hwf hne hclosed
      have hpos : 0 < (allAtoms S).card := by omega
      obtain ⟨p, hp⟩ := Finset.card_pos.mp hpos
      obtain ⟨Cp, hCp, hpC⟩ := Finset.mem_biUnion.mp hp
      obtain ⟨lp, hlp, hlpa⟩ := Finset.mem_image.mp hpC
      have hpwf : p.data ≠ [] ∧ '¬' ∉ p.data := by
        have := wfLit_iff.mp (hwf Cp hCp lp hlp)
        rwa [hlpa] at this
      have hppos : isNegLit p = false := isNegLit_eq_false_of hpwf.1 hpwf.2
      have hcomp : complementary p = "¬" ++ p := by simp [complementary, hppos]
      set T := S.filter (fun C => p ∉ C ∧ ("¬" ++ p) ∉ C) with hT
      have hTsub : ∀ C ∈ T, C ∈ S := fun C hC => (Finset.mem_filter.mp hC).1
      have hTp : ∀ C ∈ T, p ∉ C ∧ ("¬" ++ p) ∉ C :=
        fun C hC => (Finset.mem_filter.mp hC).2
      have hTwf : ∀ C ∈ T, ∀ l ∈ C, wfLit l = true := fun C hC => hwf C (hTsub C hC)
      have hTne : (∅ : Finset String) ∉ T := fun h => hne (hTsub _ h)
      have hTclosed : ∀ A ∈ T, ∀ B ∈ T, A ≠ B → resolve A B ⊆ T := by
        intro A hA B hB hAB C hC
        have hCS : C ∈ S := hclosed A (hTsub A hA) B (hTsub B hB) hAB hC
        obtain ⟨⟨l, hlA, hlB, rfl⟩, -⟩ := mem_resolve_iff.mp hC
        refine Finset.mem_filter.mpr ⟨hCS, ?_, ?_⟩
        · intro hmem
          rcases Finset.mem_union.mp (Finset.mem_sdiff.mp hmem).1 with h | h
          · exact (hTp A hA).1 h
          · exact (hTp B hB).1 h
        · intro hmem
          rcases Finset.mem_union.mp (Finset.mem_sdiff.mp hmem).1 with h | h
          · exact (hTp A hA).2 h
          · exact (hTp B hB).2 h
      have hTatom : ∀ C ∈ T, ∀ l ∈ C, atomOf l ≠ p := by
        intro C hC l hl h
        rcases atomOf_eq_cases h with rfl | rfl
        · exact (hTp C hC).1 hl
        · exact (hTp C hC).2 hl
      have hTcard : (allAtoms T).card ≤ n := by
        have hsub : allAtoms T ⊆ (allAtoms S).erase p := by
          intro a ha
          obtain ⟨C, hC, haC⟩ := Finset.mem_biUnion.mp ha
          obtain ⟨l, hl, rfl⟩ := Finset.mem_image.mp haC
          refine Finset.mem_erase.mpr ⟨hTatom C hC l hl, ?_⟩
          exact Finset.mem_biUnion.mpr
            ⟨C, hTsub C hC, Finset.mem_image.mpr ⟨l, hl, rfl⟩⟩
        have h1 := Finset.card_le_card hsub
        have h2 := Finset.card_erase_of_mem hp
        omega
      obtain ⟨v₀, hv₀⟩ := ih T hTcard hTwf hTne hTclosed
      have hval : ∀ (b : Bool) (l : String), atomOf l ≠ p →
          evalLit (fun a => if a = p then b else v₀ a) l = evalLit v₀ l := by
        intro b l h
        exact evalLit_congr (by simp [h])
      have hTsat : ∀ (b : Bool), ∀ C ∈ T,
          ∃ l ∈ C, evalLit (fun a => if a = p then b else v₀ a) l = true := by
        intro b C hC
        obtain ⟨l, hl, hlt⟩ := hv₀ C hC
        exact ⟨l, hl, by rw [hval b l (hTatom C hC l hl)]; exact hlt⟩
      by_cases hb1 : ∀ C ∈ S, ∃ l ∈ C,
          evalLit (fun a => if a = p then true else v₀ a) l = true
      · exact ⟨_, hb1⟩
      by_cases hb2 : ∀ C ∈ S, ∃ l ∈ C,
          evalLit (fun a => if a = p then false else v₀ a) l = true
      · exact ⟨_, hb2⟩
      exfalso
      push_neg at hb1 hb2
      obtain ⟨C₁, hC₁S, hC₁⟩ := hb1
      obtain ⟨C₂, hC₂S, hC₂⟩ := hb2
      have hC₁f : ∀ l ∈ C₁,
          evalLit (fun a => if a = p then true else v₀ a) l = false := by
        intro l hl
        cases h : evalLit (fun a => if a = p then true else v₀ a) l
        · rfl
        · exact absurd h (hC₁ l hl)
      have hC₂f : ∀ l ∈ C₂,
          evalLit (fun a => if a = p then false else v₀ a) l = false := by
        intro l hl
        cases h : evalLit (fun a => if a = p then false else v₀ a) l
        · rfl
        · exact absurd h (hC₂ l hl)
      have hpC₁ : p ∉ C₁ := by
        intro h
        have := hC₁f p h
        simp [evalLit, hppos] at this
      have hNC₂ : ("¬" ++ p) ∉ C₂ := by
        intro h
        have := hC₂f ("¬" ++ p) h
        rw [evalLit, if_pos (isNegLit_neg p), litTail_neg] at this
        simp at this
      have hC₁T : C₁ ∉ T := by
        intro h
        obtain ⟨l, hl, hlt⟩ := hTsat true C₁ h
        rw [hC₁f l hl] at hlt
        exact absurd hlt (by simp)
      have hC₂T : C₂ ∉ T := by
        intro h
        obtain ⟨l, hl, hlt⟩ := hTsat false C₂ h
        rw [hC₂f l hl] at hlt
        exact absurd hlt (by simp)
      have hNC₁ : ("¬" ++ p) ∈ C₁ := by
        by_contra h
        exact hC₁T (Finset.mem_filter.mpr ⟨hC₁S, hpC₁, h⟩)
      have hpC₂ : p ∈ C₂ := by
        by_contra h
        exact hC₂T (Finset.mem_filter.mpr ⟨hC₂S, h, hNC₂⟩)
      have hne12 : C₂ ≠ C₁ := by
        intro h
        rw [h] at hNC₂
        exact hNC₂ hNC₁
      have hRwf : ∀ x ∈ (C₂ ∪ C₁) \ {p, complementary p}, wfLit x = true := by
        intro x hx
        rcases Finset.mem_union.mp (Finset.mem_sdiff.mp hx).1 with h | h
        · exact hwf C₂ hC₂S x h
        · exact hwf C₁ hC₁S x h
      have hRfalse : ∀ x ∈ (C₂ ∪ C₁) \ {p, complementary p},
          evalLit v₀ x = false := by
        intro x hx
        obtain ⟨hxu, hxn⟩ := Finset.mem_sdiff.mp hx
        rw [hcomp] at hxn
        simp only [Finset.mem_insert, Finset.mem_singleton, not_or] at hxn
        have hxa : atomOf x ≠ p := by
          intro h
          rcases atomOf_eq_cases h with rfl | rfl
          · exact hxn.1 rfl
          · exact hxn.2 rfl
        rcases Finset.mem_union.mp hxu with h | h
        · rw [← hval false x hxa]
          exact hC₂f x h
        · rw [← hval true x hxa]
          exact hC₁f x h
      have htR : isTautClause ((C₂ ∪ C₁) \ {p, complementary p}) = false := by
        by_contra h
        rw [Bool.not_eq_false] at h
        obtain ⟨l, hl, hlt⟩ := taut_has_true hRwf h v₀
        rw [hRfalse l hl] at hlt
        exact absurd hlt (by simp)
      have hRres : ((C₂ ∪ C₁) \ {p, complementary p}) ∈ resolve C₂ C₁ :=
        mem_resolve_iff.mpr ⟨⟨p, hpC₂, by rw [hcomp]; exact hNC₁, rfl⟩, htR⟩
      have hRS : ((C₂ ∪ C₁) \ {p, complementary p}) ∈ S :=
        hclosed C₂ hC₂S C₁ hC₁S hne12 hRres
      have hRT : ((C₂ ∪ C₁) \ {p, complementary p}) ∈ T := by
        refine Finset.mem_filter.mpr ⟨hRS, ?_, ?_⟩
        · intro h
          exact (Finset.mem_sdiff.mp h).2 (by simp)
        · intro h
          exact (Finset.mem_sdiff.mp h).2 (by simp [hcomp])
      obtain ⟨x, hx, hxt⟩ := hv₀ _ hRT
      rw [hRfalse x hx] at hxt
      exact absurd hxt (by simp)

theorem resolutionAux_false_sat :
    ∀ (n : Nat) (known : Finset (Finset String)),
      (∀ C ∈ known, ∀ l ∈ C, wfLit l = true) →
      (∅ : Finset String) ∉ known →
      resolutionAux n known = some false →
      ∃ v, ∀ C ∈ known, ∃ l ∈ C, evalLit v l = true := by
  intro n
  induction n with
  | zero => intro known _ _ h; simp [resolutionAux] at h
  | succ n ih =>
      intro known hwf hne h
      simp only [resolutionAux] at h
      by_cases h1 : ∅ ∈ allResolvents known
      · rw [if_pos h1] at h
        exact absurd h (by simp)
      · rw [if_neg h1] at h
        by_cases h2 : allResolvents known ⊆ known
        · refine saturated_satisfiable (allAtoms known).card known le_rfl hwf hne ?_
          intro A hA B hB hAB C hC
          exact h2 (mem_allResolvents_iff.mpr ⟨A, hA, B, hB, hAB, hC⟩)
        · rw [if_neg h2] at h
          have hwf' : ∀ C ∈ known ∪ allResolvents known, ∀ l ∈ C,
              wfLit l = true := by
            intro C hC
            rcases Finset.mem_union.mp hC with hk | hr
            · exact hwf C hk
            · obtain ⟨A, hA, B, hB, hAB, hCr⟩ := mem_allResolvents_iff.mp hr
              obtain ⟨⟨l, hlA, hlB, rfl⟩, -⟩ := mem_resolve_iff.mp hCr
              intro x hx
              rcases Finset.mem_union.mp (Finset.mem_sdiff.mp hx).1 with hh | hh
              · exact hwf A hA x hh
              · exact hwf B hB x hh
          have hne' : (∅ : Finset String) ∉ known ∪ allResolvents known := by
            intro hc
            rcases Finset.mem_union.mp hc with hk | hr
            · exact hne hk
            · exact h1 hr
          obtain ⟨v, hv⟩ := ih _ hwf' hne' h
          exact ⟨v, fun C hC => hv C (Finset.mem_union_left _ hC)⟩

end ResolutionChecker

/-- C6, counterexample: on the input `[∅]` — the already-contradictory empty
clause, mentioning zero (hence at most six) atoms — the engine answers
`False` (satisfiable), because the empty-clause check only inspects newly
derived resolvents, never the input clauses; yet the clause set is
unsatisfiable under truth-table evaluation. -/
theorem C6_counterexample :
    ResolutionChecker.resolution [(∅ : Finset String)] = false ∧
    ¬ ResolutionChecker.satisfiable ([(∅ : Finset String)].toFinset) := by
  constructor
  · rfl
  · rintro ⟨v, hv⟩
    obtain ⟨l, hl, -⟩ := hv ∅ (by simp)
    exact absurd hl (Finset.not_mem_empty l)

/-- C6, amended: restricted to inputs whose clauses are nonempty,
non-tautological and made of well-formed signed literals (exactly what the
CNF pipeline produces for its clause sets), `ResolutionChecker.resolution`
returns `True` if and only if the clause set is unsatisfiable under
truth-table evaluation — with no bound needed on the number of atoms.  (On
the claim's concrete example `[{"P"}, {"¬P","Q"}, {"¬Q"}]` it returns
`True`, see the witness.)  The original claim is refuted by
`C6_counterexample`: an input containing the empty clause is declared
satisfiable, and inputs with tautological clauses can be declared
unsatisfiable while satisfiable. -/
theorem C6_resolution_sound_complete (S : List (Finset String))
    (hwf : ∀ C ∈ S, ∀ l ∈ C, ResolutionChecker.wfLit l = true)
    (hne : ∀ C ∈ S, C ≠ ∅)
    (htaut : ∀ C ∈ S, ResolutionChecker.isTautClause C = false) :
    ResolutionChecker.resolution S = true ↔
      ¬ ResolutionChecker.satisfiable S.toFinset := by
  obtain ⟨b, hb⟩ := ResolutionChecker.resolutionAux_total
    (ResolutionChecker.resolutionFuel S.toFinset) S.toFinset (by
      have h1 := Finset.card_le_card
        (ResolutionChecker.known_subset_powerset S.toFinset)
      have h2 : (ResolutionChecker.litUniverse S.toFinset).powerset.card
          = 2 ^ (ResolutionChecker.litUniverse S.toFinset).card :=
        Finset.card_powerset _
      simp only [ResolutionChecker.resolutionFuel]
      omega)
  constructor
  · intro hres hsat
    obtain ⟨v, hv⟩ := hsat
    have hbt : b = true := by
      rw [ResolutionChecker.resolution, hb] at hres
      simpa using hres
    rw [hbt] at hb
    refine ResolutionChecker.resolutionAux_ne_true v
      (ResolutionChecker.resolutionFuel S.toFinset) S.toFinset ?_ hb
    intro C hC
    have hCS : C ∈ S := List.mem_toFinset.mp hC
    exact ⟨hwf C hCS, htaut C hCS, hv C hC⟩
  · intro hunsat
    by_contra hres
    rw [Bool.not_eq_true] at hres
    have hbf : b = false := by
      rw [ResolutionChecker.resolution, hb] at hres
      simpa using hres
    rw [hbf] at hb
    obtain ⟨v, hv⟩ := ResolutionChecker.resolutionAux_false_sat
      (ResolutionChecker.resolutionFuel S.toFinset) S.toFinset
      (fun C hC => hwf C (List.mem_toFinset.mp hC))
      (fun hc => hne ∅ (List.mem_toFinset.mp hc) rfl) hb
    exact hunsat ⟨v, hv⟩

theorem C6_resolution_sound_complete_witness :
    ((∀ C ∈ [({"P"} : Finset String), {"¬P", "Q"}, {"¬Q"}],
        ∀ l ∈ C, ResolutionChecker.wfLit l = true) ∧
      (∀ C ∈ [({"P"} : Finset String), {"¬P", "Q"}, {"¬Q"}], C ≠ ∅) ∧
      (∀ C ∈ [({"P"} : Finset String), {"¬P", "Q"}, {"¬Q"}],
        ResolutionChecker.isTautClause C = false)) ∧
    ResolutionChecker.resolution [({"P"} : Finset String), {"¬P", "Q"}, {"¬Q"}] = true ∧
    (ResolutionChecker.resolution [({"P"} : Finset String), {"¬P", "Q"}, {"¬Q"}] = true ↔
      ¬ ResolutionChecker.satisfiable
        [({"P"} : Finset String), {"¬P", "Q"}, {"¬Q"}].toFinset) :=
  ⟨⟨by decide, by decide, by decide⟩, by decide,
    C6_resolution_sound_complete [({"P"} : Finset String), {"¬P", "Q"}, {"¬Q"}]
      (by decide) (by decide) (by decide)⟩
